import Mathlib

/-!
Verification development for the resume-diff backend's response-recovery
pipeline.  The Python sources (`src/file_utils.py`, `src/openai_client.py`,
`src/main.py`) are shallowly embedded: Python strings become `List Char` /
`String`, Python exceptions become `Except`/`Option`, Python `dict`s from
`json.loads` become association lists, and machine-level details that no
statement depends on (IEEE float representation, `set` iteration order,
Unicode tables beyond Latin-1) are modelled approximately with a comment at
the definition site.
-/

set_option maxRecDepth 8192

namespace ResumeDiff

/-! ## Text sanitizer (`file_utils.sanitize_text`) -/

/-- Python `str.isspace` for the characters this model covers: the ASCII
whitespace characters plus the Latin-1 ones (`\x1c`-`\x1f`, `\x85`, `\xa0`).
Further Unicode space characters (U+2000 etc.) are outside the model; all
theorems below use this predicate uniformly, matching how `str.split` and
`str.strip` share one whitespace class in Python. -/
def pyIsSpace (c : Char) : Bool :=
  c = ' ' || c = '\t' || c = '\n' || c = '\r' || c = '\x0b' || c = '\x0c' ||
  c = '\x1c' || c = '\x1d' || c = '\x1e' || c = '\x1f' || c = '\x85' || c = '\xa0'

/-- `text.replace('\x00', '')` — removes every null byte. -/
def removeNulls (l : List Char) : List Char :=
  l.filter (fun c => c ≠ '\x00')

/-- Python `str.split()` (no separator argument): split on runs of
whitespace, dropping empty pieces.  Defined with a fuel argument so that
terms reduce definitionally; `pySplitWs_cons` recovers the natural
recursion. -/
def pySplitWsFuel : Nat → List Char → List (List Char)
  | 0, _ => []
  | _, [] => []
  | fu + 1, c :: rest =>
    if pyIsSpace c then pySplitWsFuel fu rest
    else (c :: rest.takeWhile (fun x => !pyIsSpace x)) ::
      pySplitWsFuel fu (rest.dropWhile (fun x => !pyIsSpace x))

def pySplitWs (l : List Char) : List (List Char) :=
  pySplitWsFuel l.length l

theorem pySplitWsFuel_congr :
    ∀ (fu fu' : Nat) (l : List Char), l.length ≤ fu → l.length ≤ fu' →
      pySplitWsFuel fu l = pySplitWsFuel fu' l := by
  intro fu
  induction fu with
  | zero =>
    intro fu' l h _
    have : l = [] := List.length_eq_zero.mp (Nat.le_zero.mp h)
    subst this
    cases fu' <;> rfl
  | succ fu ih =>
    intro fu' l h h'
    match l with
    | [] => cases fu' <;> rfl
    | c :: rest =>
      match fu' with
      | 0 => exact absurd h' (by simp)
      | fu' + 1 =>
        simp only [pySplitWsFuel]
        simp only [List.length_cons] at h h'
        by_cases hc : pyIsSpace c
        · simp only [if_pos hc]
          exact ih fu' rest (by omega) (by omega)
        · simp only [if_neg hc]
          have hd : (rest.dropWhile (fun x => !pyIsSpace x)).length ≤ rest.length :=
            (List.dropWhile_suffix _).length_le
          rw [ih fu' (rest.dropWhile (fun x => !pyIsSpace x)) (by omega) (by omega)]

theorem pySplitWs_nil : pySplitWs [] = [] := rfl

theorem pySplitWs_cons (c : Char) (rest : List Char) :
    pySplitWs (c :: rest) =
      (if pyIsSpace c then pySplitWs rest
       else (c :: rest.takeWhile (fun x => !pyIsSpace x)) ::
         pySplitWs (rest.dropWhile (fun x => !pyIsSpace x))) := by
  show pySplitWsFuel (rest.length + 1) (c :: rest) = _
  simp only [pySplitWsFuel]
  by_cases hc : pyIsSpace c
  · simp only [if_pos hc]
    rfl
  · simp only [if_neg hc]
    have hd : (rest.dropWhile (fun x => !pyIsSpace x)).length ≤ rest.length :=
      (List.dropWhile_suffix _).length_le
    exact congrArg _ (pySplitWsFuel_congr rest.length _ _ hd (le_refl _))

/-- `sep.join(pieces)`. -/
def joinSep (sep : Char) : List (List Char) → List Char
  | [] => []
  | [w] => w
  | w :: ws => w ++ sep :: joinSep sep ws

theorem joinSep_cons₂ (sep : Char) (w x : List Char) (ws : List (List Char)) :
    joinSep sep (w :: x :: ws) = w ++ sep :: joinSep sep (x :: ws) := rfl

theorem joinSep_cons_of_ne_nil (sep : Char) (w : List Char)
    {ws : List (List Char)} (h : ws ≠ []) :
    joinSep sep (w :: ws) = w ++ sep :: joinSep sep ws := by
  match ws with
  | [] => exact absurd rfl h
  | x :: ws => rfl

/-- `' '.join(words)`. -/
def joinSpace (ws : List (List Char)) : List Char :=
  joinSep ' ' ws

/-- `' '.join(line.split())` — collapse whitespace runs inside one line. -/
def collapseLine (l : List Char) : List Char :=
  joinSpace (pySplitWs l)

/-- Python `text.split('\n')`: split on newlines, keeping empty pieces. -/
def splitNl : List Char → List (List Char)
  | [] => [[]]
  | c :: rest =>
    if c = '\n' then [] :: splitNl rest
    else
      match splitNl rest with
      | w :: ws => (c :: w) :: ws
      | [] => [[c]]

/-- `'\n'.join(lines)`. -/
def joinNl (ws : List (List Char)) : List Char :=
  joinSep '\n' ws

/-- Lines 40-42 of `file_utils.py`: split into lines, collapse whitespace
per line, re-join with newlines. -/
def collapseLines (l : List Char) : List Char :=
  joinNl ((splitNl l).map collapseLine)

/-- One pass of `text.replace('\n\n\n', '\n\n')`: leftmost non-overlapping
occurrences, the replacement text is not rescanned. -/
def collapseStep : List Char → List Char
  | '\n' :: '\n' :: '\n' :: rest => '\n' :: '\n' :: collapseStep rest
  | c :: rest => c :: collapseStep rest
  | [] => []

/-- `'\n\n\n' in text`. -/
def hasTriple : List Char → Bool
  | '\n' :: '\n' :: '\n' :: _ => true
  | _ :: rest => hasTriple rest
  | [] => false

theorem collapseStep_triple (r : List Char) :
    collapseStep ('\n' :: '\n' :: '\n' :: r) = '\n' :: '\n' :: collapseStep r := rfl

theorem collapseStep_cons (c : Char) (rest : List Char)
    (h : ∀ r : List Char, c = '\n' → rest = '\n' :: '\n' :: r → False) :
    collapseStep (c :: rest) = c :: collapseStep rest := by
  rw [collapseStep.eq_def]
  split
  · rename_i r heq
    injection heq with h1 h2
    exact absurd h2 (fun h2 => h r h1 h2)
  · rename_i c' rest' heq
    injection heq with h1 h2
    subst h1; subst h2; rfl
  · rename_i heq; cases heq

theorem hasTriple_cons (c : Char) (rest : List Char)
    (h : ∀ r : List Char, c = '\n' → rest = '\n' :: '\n' :: r → False) :
    hasTriple (c :: rest) = hasTriple rest := by
  rw [hasTriple.eq_def]
  split
  · rename_i r heq
    injection heq with h1 h2
    exact absurd h2 (fun h2 => h r h1 h2)
  · rename_i c' rest' heq
    injection heq with h1 h2
    subst h2; rfl
  · rename_i heq; cases heq

theorem collapseStep_length_le (l : List Char) :
    (collapseStep l).length ≤ l.length := by
  induction l using collapseStep.induct with
  | case1 rest ih =>
    rw [collapseStep_triple]; simp only [List.length_cons]; omega
  | case2 c rest hne ih =>
    rw [collapseStep_cons c rest hne]; simp only [List.length_cons]; omega
  | case3 => simp [collapseStep]

theorem collapseStep_length_lt {l : List Char} (h : hasTriple l = true) :
    (collapseStep l).length < l.length := by
  induction l using collapseStep.induct with
  | case1 rest ih =>
    have := collapseStep_length_le rest
    rw [collapseStep_triple]; simp only [List.length_cons]; omega
  | case2 c rest hne ih =>
    rw [collapseStep_cons c rest hne]
    rw [hasTriple_cons c rest hne] at h
    have := ih h
    simp only [List.length_cons]; omega
  | case3 => simp [hasTriple] at h

theorem hasTriple_false_of_short {l : List Char} (h : l.length ≤ 2) :
    hasTriple l = false := by
  match l with
  | [] => rfl
  | [a] =>
    rw [hasTriple_cons a [] (by intro r h1 h2; cases h2)]
    rfl
  | [a, b] =>
    rw [hasTriple_cons a [b] (by intro r h1 h2; injection h2 with h3 h4; cases h4)]
    rw [hasTriple_cons b [] (by intro r h1 h2; cases h2)]
    rfl
  | a :: b :: c :: rest => simp at h

/-- Lines 45-46 of `file_utils.py`: `while '\n\n\n' in text: text =
text.replace('\n\n\n', '\n\n')`.  Defined with a fuel argument so that
terms reduce definitionally; since each pass shortens the text by at
least one character and a text with a triple has length at least 3,
`l.length` passes always suffice (`collapseNl3_eq` recovers the loop
equation). -/
def collapseNl3Fuel : Nat → List Char → List Char
  | 0, l => l
  | fu + 1, l => if hasTriple l then collapseNl3Fuel fu (collapseStep l) else l

def collapseNl3 (l : List Char) : List Char :=
  collapseNl3Fuel l.length l

theorem collapseNl3Fuel_congr :
    ∀ (fu fu' : Nat) (l : List Char), l.length ≤ fu + 2 → l.length ≤ fu' + 2 →
      collapseNl3Fuel fu l = collapseNl3Fuel fu' l := by
  intro fu
  induction fu with
  | zero =>
    intro fu' l h _
    have ht : hasTriple l = false := hasTriple_false_of_short (by omega)
    cases fu' with
    | zero => rfl
    | succ fu' =>
      show l = collapseNl3Fuel (fu' + 1) l
      rw [collapseNl3Fuel, ht]
      rfl
  | succ fu ih =>
    intro fu' l h h'
    cases fu' with
    | zero =>
      have ht : hasTriple l = false := hasTriple_false_of_short (by omega)
      show collapseNl3Fuel (fu + 1) l = l
      rw [collapseNl3Fuel, ht]
      rfl
    | succ fu' =>
      rw [collapseNl3Fuel, collapseNl3Fuel]
      by_cases ht : hasTriple l
      · rw [if_pos ht, if_pos ht]
        have hlt : (collapseStep l).length < l.length := collapseStep_length_lt ht
        exact ih fu' (collapseStep l) (by omega) (by omega)
      · rw [if_neg ht, if_neg ht]

theorem collapseNl3_eq (l : List Char) :
    collapseNl3 l = if hasTriple l then collapseNl3 (collapseStep l) else l := by
  by_cases ht : hasTriple l
  · rw [if_pos ht]
    show collapseNl3Fuel l.length l = collapseNl3Fuel (collapseStep l).length (collapseStep l)
    have hlen3 : 3 ≤ l.length := by
      by_contra hc
      rw [hasTriple_false_of_short (by omega)] at ht
      cases ht
    obtain ⟨k, hk⟩ : ∃ k, l.length = k + 1 := ⟨l.length - 1, by omega⟩
    rw [hk]
    rw [collapseNl3Fuel, if_pos ht]
    have hlt : (collapseStep l).length < l.length := collapseStep_length_lt ht
    exact collapseNl3Fuel_congr k _ (collapseStep l) (by omega) (by omega)
  · rw [if_neg ht]
    show collapseNl3Fuel l.length l = l
    cases hl : l.length with
    | zero => rfl
    | succ k => rw [collapseNl3Fuel, if_neg ht]

/-- Python `str.strip()` with no argument: drop whitespace from both ends. -/
def pyStrip (l : List Char) : List Char :=
  ((l.dropWhile pyIsSpace).reverse.dropWhile pyIsSpace).reverse

/-- The sanitizer pipeline before the truncation step (lines 37-49 of
`file_utils.py`). -/
def sanitizeCore (l : List Char) : List Char :=
  pyStrip (collapseNl3 (collapseLines (removeNulls l)))

/-- `file_utils.sanitize_text`: returns `(sanitized_text, was_truncated)`.
`maxLength` stands for the `max_length` argument (default
`settings.MAX_TEXT_LENGTH`); the claims quantify over non-negative values,
hence `Nat`. -/
def sanitize_text (s : String) (maxLength : Nat) : String × Bool :=
  if (sanitizeCore s.data).length > maxLength then
    (⟨(sanitizeCore s.data).take maxLength⟩, true)
  else (⟨sanitizeCore s.data⟩, false)


/-! ## Python/JSON value model (`json.loads` results)

`json.loads` yields `None`/`bool`/`int`/`float`/`str`/`list`/`dict` values.
IEEE floats are modelled as exact rationals plus the special values
`nan`/`inf`/`-inf` (which Python's default parser accepts for the literals
`NaN`, `Infinity`, `-Infinity`); no claim below depends on float rounding,
only on finiteness. -/

inductive PyFloat where
  | finite (q : ℚ)
  | nan
  | inf
  | ninf
deriving DecidableEq

inductive PyVal where
  | none
  | bool (b : Bool)
  | int (i : Int)
  | float (f : PyFloat)
  | str (s : String)
  | list (xs : List PyVal)
  | dict (kvs : List (String × PyVal))

def pyGet (kvs : List (String × PyVal)) (k : String) : Option PyVal :=
  (kvs.find? (fun p => p.1 = k)).map (fun p => p.2)

def jsonWsChar (c : Char) : Bool :=
  c = ' ' || c = '\t' || c = '\n' || c = '\r'

def skipJsonWs (l : List Char) : List Char :=
  l.dropWhile jsonWsChar

def hexVal? (c : Char) : Option Nat :=
  if '0' ≤ c ∧ c ≤ '9' then some (c.toNat - 48)
  else if 'a' ≤ c ∧ c ≤ 'f' then some (c.toNat - 87)
  else if 'A' ≤ c ∧ c ≤ 'F' then some (c.toNat - 55)
  else Option.none

def surrogateRepl : Char := Char.ofNat 0xFFFD

def parseStrAux : Nat → List Char → List Char → Option (String × List Char)
  | 0, _, _ => Option.none
  | _, [], _ => Option.none
  | fu + 1, c :: rest, acc =>
    if c = '"' then some (⟨acc.reverse⟩, rest)
    else if c = '\\' then
      match rest with
      | [] => Option.none
      | e :: rest2 =>
        if e = '"' then parseStrAux fu rest2 ('"' :: acc)
        else if e = '\\' then parseStrAux fu rest2 ('\\' :: acc)
        else if e = '/' then parseStrAux fu rest2 ('/' :: acc)
        else if e = 'b' then parseStrAux fu rest2 (Char.ofNat 8 :: acc)
        else if e = 'f' then parseStrAux fu rest2 (Char.ofNat 12 :: acc)
        else if e = 'n' then parseStrAux fu rest2 ('\n' :: acc)
        else if e = 'r' then parseStrAux fu rest2 ('\r' :: acc)
        else if e = 't' then parseStrAux fu rest2 ('\t' :: acc)
        else if e = 'u' then
          match rest2 with
          | h1 :: h2 :: h3 :: h4 :: rest3 =>
            match hexVal? h1, hexVal? h2, hexVal? h3, hexVal? h4 with
            | some x1, some x2, some x3, some x4 =>
              let n := ((x1 * 16 + x2) * 16 + x3) * 16 + x4
              if 0xD800 ≤ n ∧ n ≤ 0xDBFF then
                match rest3 with
                | '\\' :: 'u' :: g1 :: g2 :: g3 :: g4 :: rest4 =>
                  match hexVal? g1, hexVal? g2, hexVal? g3, hexVal? g4 with
                  | some y1, some y2, some y3, some y4 =>
                    let m := ((y1 * 16 + y2) * 16 + y3) * 16 + y4
                    if 0xDC00 ≤ m ∧ m ≤ 0xDFFF then
                      parseStrAux fu rest4
                        (Char.ofNat (0x10000 + (n - 0xD800) * 0x400 + (m - 0xDC00)) :: acc)
                    else parseStrAux fu rest3 (surrogateRepl :: acc)
                  | _, _, _, _ => parseStrAux fu rest3 (surrogateRepl :: acc)
                | _ => parseStrAux fu rest3 (surrogateRepl :: acc)
              else if 0xDC00 ≤ n ∧ n ≤ 0xDFFF then
                parseStrAux fu rest3 (surrogateRepl :: acc)
              else parseStrAux fu rest3 (Char.ofNat n :: acc)
            | _, _, _, _ => Option.none
          | _ => Option.none
        else Option.none
    else if c.toNat < 0x20 then Option.none
    else parseStrAux fu rest (c :: acc)

def digitsToNat (ds : List Char) : Nat :=
  ds.foldl (fun a c => a * 10 + (c.toNat - 48)) 0

def tenPow (k : Nat) : ℚ := (10 : ℚ) ^ k

structure NumParts where
  intPart : Nat
  fracDigits : List Char
  expVal : Int
  isFloat : Bool

def parseExpPart (rest : List Char) : Option (Int × List Char) :=
  match rest with
  | e :: r2 =>
    if e = 'e' ∨ e = 'E' then
      let (sgn, r3) : Int × List Char :=
        match r2 with
        | '+' :: r => (1, r)
        | '-' :: r => (-1, r)
        | r => (1, r)
      let ds := r3.takeWhile Char.isDigit
      if ds.isEmpty then Option.none
      else some (sgn * (digitsToNat ds : Int), r3.dropWhile Char.isDigit)
    else Option.none
  | [] => Option.none

def numValue (neg : Bool) (n : Nat) (frac : List Char) (exp : Int) (isFloat : Bool) : PyVal :=
  if isFloat then
    let mant : ℚ := (n : ℚ) + (digitsToNat frac : ℚ) / tenPow frac.length
    let q0 : ℚ := mant * (10 : ℚ) ^ exp
    .float (.finite (if neg then -q0 else q0))
  else
    .int (if neg then -(n : Int) else (n : Int))

def parseNumTail (neg : Bool) (n : Nat) (rest : List Char) : PyVal × List Char :=
  let (frac, rest2) : List Char × List Char :=
    match rest with
    | '.' :: r2 =>
      let fd := r2.takeWhile Char.isDigit
      if fd.isEmpty then ([], rest) else (fd, r2.dropWhile Char.isDigit)
    | _ => ([], rest)
  let (exp, rest3, hasExp) : Int × List Char × Bool :=
    match parseExpPart rest2 with
    | some (e, r) => (e, r, true)
    | Option.none => (0, rest2, false)
  (numValue neg n frac exp (!frac.isEmpty || hasExp), rest3)

def parseNum (l : List Char) : Option (PyVal × List Char) :=
  let (neg, l1) : Bool × List Char :=
    match l with
    | '-' :: r => (true, r)
    | _ => (false, l)
  match l1 with
  | c :: r =>
    if c = '0' then some (parseNumTail neg 0 r)
    else if '1' ≤ c ∧ c ≤ '9' then
      let ds := r.takeWhile Char.isDigit
      some (parseNumTail neg (digitsToNat (c :: ds)) (r.dropWhile Char.isDigit))
    else Option.none
  | [] => Option.none

def dictInsert (kvs : List (String × PyVal)) (k : String) (v : PyVal) :
    List (String × PyVal) :=
  if kvs.any (fun p => p.1 = k) then
    kvs.map (fun p => if p.1 = k then (k, v) else p)
  else kvs ++ [(k, v)]

mutual

def parseVal : Nat → List Char → Option (PyVal × List Char)
  | 0, _ => Option.none
  | fu + 1, l =>
    match l with
    | '"' :: rest => (parseStrAux (rest.length + 1) rest []).map (fun p => (.str p.1, p.2))
    | '{' :: rest =>
      match skipJsonWs rest with
      | '}' :: r => some (.dict [], r)
      | r => parseObjRest fu r []
    | '[' :: rest =>
      match skipJsonWs rest with
      | ']' :: r => some (.list [], r)
      | r => parseArrRest fu r []
    | 't' :: 'r' :: 'u' :: 'e' :: r => some (.bool true, r)
    | 'f' :: 'a' :: 'l' :: 's' :: 'e' :: r => some (.bool false, r)
    | 'n' :: 'u' :: 'l' :: 'l' :: r => some (.none, r)
    | 'N' :: 'a' :: 'N' :: r => some (.float .nan, r)
    | 'I' :: 'n' :: 'f' :: 'i' :: 'n' :: 'i' :: 't' :: 'y' :: r => some (.float .inf, r)
    | '-' :: 'I' :: 'n' :: 'f' :: 'i' :: 'n' :: 'i' :: 't' :: 'y' :: r =>
      some (.float .ninf, r)
    | l' => parseNum l'

def parseObjRest : Nat → List Char → List (String × PyVal) →
    Option (PyVal × List Char)
  | 0, _, _ => Option.none
  | fu + 1, l, acc =>
    match l with
    | '"' :: rest =>
      match parseStrAux (rest.length + 1) rest [] with
      | some (k, r1) =>
        match skipJsonWs r1 with
        | ':' :: r2 =>
          match parseVal fu (skipJsonWs r2) with
          | some (v, r3) =>
            let acc' := dictInsert acc k v
            match skipJsonWs r3 with
            | ',' :: r4 => parseObjRest fu (skipJsonWs r4) acc'
            | '}' :: r4 => some (.dict acc', r4)
            | _ => Option.none
          | Option.none => Option.none
        | _ => Option.none
      | Option.none => Option.none
    | _ => Option.none

def parseArrRest : Nat → List Char → List PyVal → Option (PyVal × List Char)
  | 0, _, _ => Option.none
  | fu + 1, l, acc =>
    match parseVal fu l with
    | some (v, r1) =>
      match skipJsonWs r1 with
      | ',' :: r2 => parseArrRest fu (skipJsonWs r2) (acc ++ [v])
      | ']' :: r2 => some (.list (acc ++ [v]), r2)
      | _ => Option.none
    | Option.none => Option.none

end

def json_loads (s : String) : Option PyVal :=
  match parseVal (s.length + 1) (skipJsonWs s.data) with
  | some (v, rest) => if (skipJsonWs rest).isEmpty then some v else Option.none
  | Option.none => Option.none

/-! ## Response recovery (`openai_client.extract_json_from_text`)

The code scans with `re.findall(r'\{[^{}]*(?:\{[^{}]*\}[^{}]*)*\}', text)`.
For this pattern, Python regex matching is deterministic: starting at a
`{` it accepts the shortest brace-balanced substring whose nesting depth
never exceeds 2 (character classes exclude both braces, so the engine has
no real choice points), and fails if a depth-3 `{` or the end of input is
reached first.  `d2scan` is that scan (the `Bool` argument tells whether
we are at depth 2); `findallD2` is `re.findall`: leftmost,
non-overlapping, continuing after each match.  A fuel-indexed definition
is used so that terms reduce definitionally; `findallD2_cons` recovers
the natural recursion. -/

def d2scan : Bool → List Char → Option (List Char × List Char)
  | _, [] => Option.none
  | depth2, c :: rest =>
    if c = '}' then
      if depth2 then
        match d2scan false rest with
        | some (m, r) => some ('}' :: m, r)
        | Option.none => Option.none
      else some (['}'], rest)
    else if c = '{' then
      if depth2 then Option.none
      else
        match d2scan true rest with
        | some (m, r) => some ('{' :: m, r)
        | Option.none => Option.none
    else
      match d2scan depth2 rest with
      | some (m, r) => some (c :: m, r)
      | Option.none => Option.none

theorem d2scan_remainder_le {b : Bool} {l m r : List Char}
    (h : d2scan b l = some (m, r)) : r.length ≤ l.length := by
  induction l generalizing b m r with
  | nil => simp [d2scan] at h
  | cons c rest ih =>
    rw [d2scan] at h
    split_ifs at h
    all_goals
      first
      | (injection h with h'
         injection h' with hm hr
         subst hr
         exact Nat.le_succ rest.length)
      | cases h
      | (split at h
         · rename_i m' r' hscan
           injection h with h'
           injection h' with hm hr
           subst hr
           exact Nat.le_succ_of_le (ih hscan)
         · cases h)

def findallD2Fuel : Nat → List Char → List (List Char)
  | 0, _ => []
  | _, [] => []
  | fu + 1, c :: rest =>
    if c = '{' then
      match d2scan false rest with
      | some (m, r) => ('{' :: m) :: findallD2Fuel fu r
      | Option.none => findallD2Fuel fu rest
    else findallD2Fuel fu rest

def findallD2 (l : List Char) : List (List Char) :=
  findallD2Fuel l.length l

theorem findallD2Fuel_congr :
    ∀ (fu fu' : Nat) (l : List Char), l.length ≤ fu → l.length ≤ fu' →
      findallD2Fuel fu l = findallD2Fuel fu' l := by
  intro fu
  induction fu with
  | zero =>
    intro fu' l h _
    have : l = [] := List.length_eq_zero.mp (Nat.le_zero.mp h)
    subst this
    cases fu' <;> rfl
  | succ fu ih =>
    intro fu' l h h'
    match l with
    | [] => cases fu' <;> rfl
    | c :: rest =>
      match fu' with
      | 0 => exact absurd h' (by simp)
      | fu' + 1 =>
        simp only [findallD2Fuel]
        simp only [List.length_cons] at h h'
        by_cases hc : c = '{'
        · simp only [if_pos hc]
          cases hscan : d2scan false rest with
          | some p =>
            obtain ⟨m, r⟩ := p
            have hr : r.length ≤ rest.length := d2scan_remainder_le hscan
            exact congrArg _ (ih fu' r (by omega) (by omega))
          | none => exact ih fu' rest (by omega) (by omega)
        · simp only [if_neg hc]
          exact ih fu' rest (by omega) (by omega)

theorem findallD2_nil : findallD2 [] = [] := rfl

theorem findallD2_cons (c : Char) (rest : List Char) :
    findallD2 (c :: rest) =
      (if c = '{' then
        match d2scan false rest with
        | some (m, r) => ('{' :: m) :: findallD2 r
        | Option.none => findallD2 rest
      else findallD2 rest) := by
  show findallD2Fuel (rest.length + 1) (c :: rest) = _
  simp only [findallD2Fuel]
  by_cases hc : c = '{'
  · simp only [if_pos hc]
    cases hscan : d2scan false rest with
    | some p =>
      obtain ⟨m, r⟩ := p
      have hr : r.length ≤ rest.length := d2scan_remainder_le hscan
      exact congrArg _ (findallD2Fuel_congr _ _ r hr (le_refl _))
    | none => rfl
  · simp only [if_neg hc]
    rfl

/-- `text.find('{')` as an optional index. -/
def firstBraceIdx (l : List Char) : Option Nat :=
  l.findIdx? (fun c => c = '{')

/-- `text.rfind('}')` as an optional index. -/
def lastBraceIdx (l : List Char) : Option Nat :=
  match l.reverse.findIdx? (fun c => c = '}') with
  | some j => some (l.length - 1 - j)
  | Option.none => Option.none

/-- `openai_client.extract_json_from_text`: direct parse, then the
brace-pattern scan trying each match in order, then the first-`{`-to-
last-`}` slice.  Exceptions inside are all caught in the source
(`except json.JSONDecodeError`), so the embedding is a total function
into `Option`. -/
def extract_json_from_text (text : String) : Option PyVal :=
  match json_loads text with
  | some v => some v
  | Option.none =>
    match (findallD2 text.data).findSome? (fun m => json_loads ⟨m⟩) with
    | some v => some v
    | Option.none =>
      match firstBraceIdx text.data, lastBraceIdx text.data with
      | some i, some j =>
        if i < j then json_loads ⟨(text.data.drop i).take (j + 1 - i)⟩
        else Option.none
      | _, _ => Option.none

/-! ## Python semantics helpers used by the coercion engine -/

/-- Python string slicing `s[:n]` (by code points). -/
def pyTake (s : String) (n : Nat) : String :=
  ⟨s.data.take n⟩

/-- Python truthiness (`if s:`) for recovered JSON values.  Note `nan`
and the infinities are truthy. -/
def pyTruthy : PyVal → Bool
  | .none => false
  | .bool b => b
  | .int i => i ≠ 0
  | .float (.finite q) => q ≠ 0
  | .float _ => true
  | .str s => s ≠ ""
  | .list xs => !xs.isEmpty
  | .dict kvs => !kvs.isEmpty

/-- `isinstance(x, (int, float))`.  Python `bool` is a subclass of `int`,
so booleans count as numeric. -/
def isNumericPy : PyVal → Bool
  | .bool _ => true
  | .int _ => true
  | .float _ => true
  | _ => false

def isListPy : PyVal → Bool
  | .list _ => true
  | _ => false

def pyQuoteChar : Char := '\''

/-- `str()` of a float.  Python prints the shortest decimal that
round-trips the IEEE double; modelled approximately (no statement below
depends on this rendering). -/
def pyFloatStr : PyFloat → String
  | .nan => "nan"
  | .inf => "inf"
  | .ninf => "-inf"
  | .finite q =>
    if q.den = 1 then toString q.num ++ ".0"
    else toString q.num ++ "/" ++ toString q.den

def commaJoin (ss : List String) : String :=
  String.intercalate ", " ss

mutual

/-- `repr(v)`: the rendering Python uses for values nested inside
containers.  String quoting/escaping is approximated by plain single
quotes; no statement below depends on the rendering of containers. -/
def pyReprV : PyVal → String
  | .none => "None"
  | .bool true => "True"
  | .bool false => "False"
  | .int i => toString i
  | .float f => pyFloatStr f
  | .str s => String.singleton pyQuoteChar ++ s ++ String.singleton pyQuoteChar
  | .list xs => "[" ++ commaJoin (pyReprList xs) ++ "]"
  | .dict kvs => "\x7b" ++ commaJoin (pyReprKvs kvs) ++ "\x7d"

def pyReprList : List PyVal → List String
  | [] => []
  | v :: vs => pyReprV v :: pyReprList vs

def pyReprKvs : List (String × PyVal) → List String
  | [] => []
  | (k, v) :: kvs =>
    (String.singleton pyQuoteChar ++ k ++ String.singleton pyQuoteChar ++
      ": " ++ pyReprV v) :: pyReprKvs kvs

end

/-- `str(v)` for a recovered JSON value: like `repr` except that a
top-level string is returned unquoted. -/
def pyStr : PyVal → String
  | .str s => s
  | v => pyReprV v

/-- `int(x)` applied to a value that passed `isinstance(x, (int, float))`:
booleans convert to 0/1, ints are unchanged, finite floats truncate
toward zero, and non-finite floats raise
(`ValueError`/`OverflowError`). -/
def pyIntOfNumeric : PyVal → Except String Int
  | .bool b => .ok (if b then 1 else 0)
  | .int i => .ok i
  | .float (.finite q) => .ok (if 0 ≤ q then ⌊q⌋ else ⌈q⌉)
  | .float .nan => .error "cannot convert float NaN to integer"
  | .float .inf => .error "cannot convert float infinity to integer"
  | .float .ninf => .error "cannot convert float infinity to integer"
  | _ => .error "int() argument is not numeric"

/-- Python `round()` of the non-negative quotient `a / t` (with `t > 0`):
round-half-to-even. -/
def roundHalfEvenDiv (a t : Nat) : Nat :=
  let q := a / t
  let r := a % t
  if 2 * r < t then q
  else if 2 * r > t then q + 1
  else if q % 2 = 0 then q else q + 1

/-- `round(100 * matched / (matched + missing))` from
`validate_and_coerce_response` (only evaluated when `matched + missing >
0`, else 0).  Python computes the quotient in IEEE double and applies
banker's rounding; modelled as banker's rounding of the exact rational
quotient, adequate because every statement below only uses this value
after the `[0,100]` clamp. -/
def derivedPercent (m n : Nat) : Int :=
  if m + n > 0 then (roundHalfEvenDiv (100 * m) (m + n) : Int) else 0

/-! ## Result models (`models.py`) -/

structure HighlightItem where
  term : String
  context : String
deriving DecidableEq

structure Highlights where
  jdMatches : Option (List HighlightItem)
  resumeMatches : Option (List HighlightItem)
deriving DecidableEq

/-- `models.CompareResponseModel`.  The pydantic `field_validator` clamps
`matchPercent` to `[0,100]` again at construction, which is the identity
at both construction sites in the source (the coercion engine clamps
first and the fallback uses 0), so the structure carries the already
clamped value. -/
structure CompareResponse where
  matchPercent : Int
  matchedSkills : List String
  missingSkills : List String
  highlights : Option Highlights
  warnings : Option (List String)
deriving DecidableEq

/-! ## Schema coercion engine (`openai_client.validate_and_coerce_response`) -/

/-- `data.get('matchedSkills', [])` followed by the `isinstance(..., list)`
check: any non-list (or absent) value becomes `[]`. -/
def listElems (v : Option PyVal) : List PyVal :=
  match v with
  | some (.list xs) => xs
  | _ => []

/-- `list(set(str(s) for s in skills if s))`.  Python `set` iteration
order is unspecified; the model keeps the first occurrence of each
distinct string.  Statements below depend only on membership and
length. -/
def dedupSkills (xs : List PyVal) : List String :=
  ((xs.filter pyTruthy).map pyStr).dedup

/-- The body of `validate_highlights`' loop condition:
`isinstance(item, dict) and 'term' in item and 'context' in item`, then
`HighlightItem(term=str(item['term'])[:100], context=str(item['context'])[:500])`. -/
def validItem : PyVal → Option HighlightItem
  | .dict kvs =>
    match pyGet kvs "term", pyGet kvs "context" with
    | some t, some c => some ⟨pyTake (pyStr t) 100, pyTake (pyStr c) 500⟩
    | _, _ => Option.none
  | _ => Option.none

/-- `validate_highlights(items)`: `items[:10]` first, then the validity
filter; returns `None` when nothing validates (`validated if validated
else None`). -/
def validate_highlights (items : List PyVal) : Option (List HighlightItem) :=
  let v := (items.take 10).filterMap validItem
  if v.isEmpty then Option.none else some v

/-- Lines 170-198 of `openai_client.py`: the `highlights` field policy.
`highlights_data.get('jdMatches', [])` defaults to a (list) value, so the
`isinstance(jd_matches, list) or isinstance(resume_matches, list)` guard
also passes when a key is absent. -/
def highlightsOf (data : List (String × PyVal)) : Option Highlights :=
  match pyGet data "highlights" with
  | some (.dict h) =>
    let jdv := (pyGet h "jdMatches").getD (.list [])
    let rmv := (pyGet h "resumeMatches").getD (.list [])
    if isListPy jdv || isListPy rmv then
      let vjd := match jdv with
        | .list xs => validate_highlights xs
        | _ => Option.none
      let vrm := match rmv with
        | .list xs => validate_highlights xs
        | _ => Option.none
      if vjd.isSome || vrm.isSome then some ⟨vjd, vrm⟩ else Option.none
    else Option.none
  | _ => Option.none

/-- Lines 200-204: `[str(w)[:500] for w in warnings if w][:5]` over a
list-valued `warnings` entry (anything else is treated as `[]`). -/
def warningsOf (data : List (String × PyVal)) : List String :=
  (((listElems (pyGet data "warnings")).filter pyTruthy).map
    (fun w => pyTake (pyStr w) 500)).take 5

/-- The `matchPercent` selection (lines 156-167): a present numeric value
(including booleans) is converted with `int()`; anything else derives the
percentage from the deduplicated skill counts. -/
def matchPercentRaw (data : List (String × PyVal)) : Except String Int :=
  match pyGet data "matchPercent" with
  | some v =>
    if isNumericPy v then pyIntOfNumeric v
    else .ok (derivedPercent
      (dedupSkills (listElems (pyGet data "matchedSkills"))).length
      (dedupSkills (listElems (pyGet data "missingSkills"))).length)
  | Option.none => .ok (derivedPercent
      (dedupSkills (listElems (pyGet data "matchedSkills"))).length
      (dedupSkills (listElems (pyGet data "missingSkills"))).length)

/-- `validate_and_coerce_response` when the recovered value is a mapping.
The only failing operation in the body is `int(match_percent)` on a
non-finite float; everything else substitutes defaults. -/
def coerceDict (data : List (String × PyVal)) : Except String CompareResponse :=
  match matchPercentRaw data with
  | .error e => .error e
  | .ok mp0 =>
    let ws := warningsOf data
    .ok ⟨max 0 (min 100 mp0),
      dedupSkills (listElems (pyGet data "matchedSkills")),
      dedupSkills (listElems (pyGet data "missingSkills")),
      highlightsOf data,
      if ws.isEmpty then Option.none else some ws⟩

/-- `openai_client.validate_and_coerce_response`.  A non-mapping argument
raises (`AttributeError` on `.get`), modelled as `Except.error`. -/
def validate_and_coerce_response : PyVal → Except String CompareResponse
  | .dict kvs => coerceDict kvs
  | _ => .error "recovered value is not a mapping"

/-! ## Completion-processing tail of `openai_client.call_openai_completions`
(lines 291-315): recovery failure yields the fallback result, otherwise the
coercion engine runs and its exceptions propagate (wrapped at the call
site into an HTTP 502). -/

def fallbackWarning1 : String := "Model returned invalid JSON response"

def fallbackWarning2 (completion_text : String) : String :=
  "Response preview: " ++ pyTake completion_text 200 ++ "..."

def process_completion (completion_text : String) : Except String CompareResponse :=
  match extract_json_from_text completion_text with
  | Option.none =>
    .ok ⟨0, [], [], Option.none,
      some [fallbackWarning1, fallbackWarning2 completion_text]⟩
  | some v => validate_and_coerce_response v

/-! ## Extraction dispatcher (`file_utils.extract_text_from_file`) -/

inductive ExtractorKind where
  | pdf
  | docx
  | txt
deriving DecidableEq

/-- Python exception classes as distinguished by the callers:
`ValueError` versus any other `Exception`. -/
inductive PyErr where
  | valueError (msg : String)
  | exn (msg : String)
deriving DecidableEq

/-- `upload_file.filename or "unknown"`: Python `or` replaces both `None`
and the empty string. -/
def pyFilename (filename0 : Option String) : String :=
  match filename0 with
  | some s => if s = "" then "unknown" else s
  | Option.none => "unknown"

/-- `str.lower()` restricted to ASCII (filenames in the claims are
ASCII; Python also lowercases further Unicode ranges). -/
def pyLowerChar (c : Char) : Char :=
  if 'A' ≤ c ∧ c ≤ 'Z' then Char.ofNat (c.toNat + 32) else c

def pyLower (s : String) : String :=
  ⟨s.data.map pyLowerChar⟩

/-- `str.endswith(suffix)`. -/
def pyEndsWith (s sfx : String) : Bool :=
  sfx.data.isSuffixOf s.data

/-- The content-type / extension dispatch chain (lines 217-233 of
`file_utils.py`): each branch tests the declared content type *or* the
lowercased filename extension, in the fixed order PDF, DOCX/DOC, TXT. -/
def selectExtractor (content_type filename : String) : Option ExtractorKind :=
  if content_type = "application/pdf" || pyEndsWith (pyLower filename) ".pdf" then
    some .pdf
  else if
      content_type =
        "application/vnd.openxmlformats-officedocument.wordprocessingml.document" ||
      content_type = "application/msword" ||
      pyEndsWith (pyLower filename) ".docx" || pyEndsWith (pyLower filename) ".doc" then
    some .docx
  else if content_type = "text/plain" || pyEndsWith (pyLower filename) ".txt" then
    some .txt
  else Option.none

def sizeErrorMsg (fileSize maxFileSize : Nat) : String :=
  "File size (" ++ toString fileSize ++ " bytes) exceeds maximum allowed size (" ++
    toString maxFileSize ++ " bytes)"

def unsupportedTypeMsg (content_type : String) : String :=
  "Unsupported file type: " ++ content_type ++ ". Supported types: PDF, DOCX, DOC, TXT"

def truncationWarning (filename : String) (maxTextLength : Nat) : String :=
  "Text from " ++ filename ++ " was truncated to " ++ toString maxTextLength ++
    " characters"

def tooShortMsg (filename : String) : String :=
  "Extracted text from " ++ filename ++ " is too short or empty"

/-- `file_utils.extract_text_from_file`.  The per-format extractor
libraries (pypdf/pdfminer, python-docx, byte decoding) are external
collaborators behind the `extract(bytes, filename)` boundary; their
outcome is the `runExtractor` parameter (`.error` = the extractor
raised).  `filename0`/`content_type0` are the raw `upload_file`
attributes (the body applies the `or "unknown"` / `or ""` defaulting);
`fileSize` is `len(file_content)`; `maxFileSize`/`maxTextLength` stand
for `settings.MAX_FILE_SIZE`/`settings.MAX_TEXT_LENGTH`. -/
def extract_text_from_file (filename0 content_type0 : Option String)
    (fileSize maxFileSize maxTextLength : Nat)
    (runExtractor : ExtractorKind → Except String String) :
    Except PyErr (String × Option String) :=
  let filename := pyFilename filename0
  let content_type := content_type0.getD ""
  if fileSize > maxFileSize then
    .error (.valueError (sizeErrorMsg fileSize maxFileSize))
  else
    match selectExtractor content_type filename with
    | Option.none => .error (.valueError (unsupportedTypeMsg content_type))
    | some k =>
      match runExtractor k with
      | .error e => .error (.exn e)
      | .ok raw_text =>
        let st := sanitize_text raw_text maxTextLength
        let warning := if st.2 then some (truncationWarning filename maxTextLength)
          else Option.none
        if st.1 = "" || (pyStrip st.1.data).length < 10 then
          .error (.valueError (tooShortMsg filename))
        else .ok (st.1, warning)

/-! ## The `/api/compare` operation (`main.py`) -/

inductive HTTPError where
  | e400 (detail : String)
  | e500 (detail : String)
  | e502 (detail : String)
deriving DecidableEq

def isClientError : HTTPError → Bool
  | .e400 _ => true
  | _ => false

/-- Truthiness of an optional form string (`if jd_text:`): `None` and the
empty string are falsy. -/
def truthyOptStr : Option String → Bool
  | some s => s ≠ ""
  | Option.none => false

/-- A supplied `jd_file` together with the outcome its extraction would
have: `filenameOk` is the truthiness of `jd_file.filename` (line 138),
`result` the outcome of `extract_text_from_file(jd_file)`. -/
structure JdFileArg where
  filenameOk : Bool
  result : Except PyErr (String × Option String)

def bothProvidedWarning : String :=
  "Both jd_file and jd_text provided; using jd_file content"

def jdFallbackValueWarning (msg : String) : String :=
  "JD file extraction failed (" ++ msg ++ "), using jd_text instead"

def jdFallbackExnWarning : String :=
  "JD file extraction error, using jd_text instead"

/-- `main.compare` (lines 100-216), embedded over the outcomes of its
collaborators: `resumeResult` is the outcome of extracting
`resume_file` (with `resumeOk` the truthiness of `resume_file` and its
filename), `jdFile`/`jdText` the two job-description sources, and
`callModel` the outcome of `call_openai_completions` (a `ValueError`
maps to HTTP 400, any other exception to HTTP 502, per the
`try`/`except` at lines 208-216). -/
def compare (jdFile : Option JdFileArg) (jdText : Option String)
    (resumeOk : Bool) (resumeResult : Except PyErr (String × Option String))
    (callModel : String → String → Except PyErr CompareResponse) :
    Except HTTPError CompareResponse :=
  if !resumeOk then .error (.e400 "resume_file is required")
  else if jdFile.isNone && !truthyOptStr jdText then
    .error (.e400 "At least one of jd_file or jd_text must be provided")
  else
    match resumeResult with
    | .error (.valueError m) => .error (.e400 m)
    | .error (.exn m) => .error (.e500 ("Failed to extract resume text: " ++ m))
    | .ok (resume_text, resumeWarn) =>
      let warnings0 : List String := match resumeWarn with
        | some w => [w]
        | Option.none => []
      let jdElse : Except HTTPError (String × List String) :=
        if truthyOptStr jdText then
          let t : String := ⟨pyStrip ((jdText.getD "").data)⟩
          if t.length < 10 then
            .error (.e400 "jd_text is too short (minimum 10 characters)")
          else .ok (t, warnings0)
        else .ok ("", warnings0)
      let jdStep : Except HTTPError (String × List String) :=
        match jdFile with
        | some jf =>
          if jf.filenameOk then
            match jf.result with
            | .ok (t, jw) =>
              let ws1 := warnings0 ++ (match jw with
                | some w => [w]
                | Option.none => [])
              let ws2 := if truthyOptStr jdText then ws1 ++ [bothProvidedWarning]
                else ws1
              .ok (t, ws2)
            | .error (.valueError m) =>
              if truthyOptStr jdText then
                .ok (jdText.getD "", warnings0 ++ [jdFallbackValueWarning m])
              else .error (.e400 m)
            | .error (.exn m) =>
              if truthyOptStr jdText then
                .ok (jdText.getD "", warnings0 ++ [jdFallbackExnWarning])
              else .error (.e500 ("Failed to extract JD text: " ++ m))
          else jdElse
        | Option.none => jdElse
      match jdStep with
      | .error e => .error e
      | .ok (jd_final_text, warnings1) =>
        if jd_final_text = "" || (pyStrip jd_final_text.data).length < 10 then
          .error (.e400 "Job description text is too short or empty")
        else
          match callModel jd_final_text resume_text with
          | .error (.valueError m) => .error (.e400 m)
          | .error (.exn m) => .error (.e502 ("OpenAI API error: " ++ m))
          | .ok result =>
            if warnings1.isEmpty then .ok result
            else
              let ws0 := match result.warnings with
                | some ws => ws
                | Option.none => []
              .ok { result with warnings := some (ws0 ++ warnings1) }

/-! ## Shared lemmas about the coercion engine -/

/-- The values on which `int()` raises inside the coercion engine. -/
def nonFiniteFloat : PyVal → Bool
  | .float .nan => true
  | .float .inf => true
  | .float .ninf => true
  | _ => false

theorem matchPercentRaw_ok (kvs : List (String × PyVal))
    (h : ∀ v, pyGet kvs "matchPercent" = some v → nonFiniteFloat v = false) :
    ∃ mp0 : Int, matchPercentRaw kvs = .ok mp0 := by
  unfold matchPercentRaw
  cases hv : pyGet kvs "matchPercent" with
  | none => exact ⟨_, rfl⟩
  | some v =>
    have hnf := h v hv
    cases v with
    | bool b => exact ⟨_, rfl⟩
    | int i => exact ⟨_, rfl⟩
    | float f =>
      cases f with
      | finite q => exact ⟨_, rfl⟩
      | nan => simp [nonFiniteFloat] at hnf
      | inf => simp [nonFiniteFloat] at hnf
      | ninf => simp [nonFiniteFloat] at hnf
    | none => exact ⟨_, rfl⟩
    | str s => exact ⟨_, rfl⟩
    | list xs => exact ⟨_, rfl⟩
    | dict d => exact ⟨_, rfl⟩

theorem coerce_ok (kvs : List (String × PyVal))
    (h : ∀ v, pyGet kvs "matchPercent" = some v → nonFiniteFloat v = false) :
    ∃ mp0 : Int, matchPercentRaw kvs = .ok mp0 ∧
      validate_and_coerce_response (.dict kvs) =
        .ok ⟨max 0 (min 100 mp0),
          dedupSkills (listElems (pyGet kvs "matchedSkills")),
          dedupSkills (listElems (pyGet kvs "missingSkills")),
          highlightsOf kvs,
          if (warningsOf kvs).isEmpty then Option.none
          else some (warningsOf kvs)⟩ := by
  obtain ⟨mp0, hmp⟩ := matchPercentRaw_ok kvs h
  refine ⟨mp0, hmp, ?_⟩
  have hstep : validate_and_coerce_response (.dict kvs) = coerceDict kvs := rfl
  rw [hstep]
  unfold coerceDict
  rw [hmp]

theorem clamp_nonneg (x : Int) : 0 ≤ max 0 (min 100 x) := le_max_left 0 _

theorem clamp_le_100 (x : Int) : max 0 (min 100 x) ≤ 100 :=
  max_le (by norm_num) (min_le_left _ _)

/-! ## Claim C1 -/

/-- C1 (counterexample): the claim "for every recovered value that is a
mapping, the schema-coercion engine succeeds ... including arbitrary
numeric or non-numeric values in the matchPercent field" is false: the
mapping `{"matchPercent": NaN}` — recoverable, since `json.loads`
accepts the `NaN` literal — passes `isinstance(x, (int, float))` and
then `int(nan)` raises `ValueError`. -/
theorem c1_counterexample :
    json_loads "\x7b\"matchPercent\": NaN\x7d" =
      some (.dict [("matchPercent", .float .nan)]) ∧
    validate_and_coerce_response (.dict [("matchPercent", .float .nan)]) =
      .error "cannot convert float NaN to integer" := ⟨rfl, rfl⟩

/-- C1 (amended): for every recovered mapping whose `matchPercent` entry
is not a non-finite float (`NaN`, `Infinity`, `-Infinity`), the
schema-coercion engine succeeds and the resulting `matchPercent` is an
integer in `[0, 100]`; a non-finite float raises. -/
theorem c1_coercion_bounds (kvs : List (String × PyVal))
    (h : ∀ v, pyGet kvs "matchPercent" = some v → nonFiniteFloat v = false) :
    ∃ r : CompareResponse, validate_and_coerce_response (.dict kvs) = .ok r ∧
      0 ≤ r.matchPercent ∧ r.matchPercent ≤ 100 := by
  obtain ⟨mp0, _, hok⟩ := coerce_ok kvs h
  exact ⟨_, hok, clamp_nonneg mp0, clamp_le_100 mp0⟩

/-- C1 (witness): the amended theorem at the concrete mapping
`{"matchPercent": 250, "matchedSkills": "nope"}`. -/
theorem c1_coercion_bounds_witness :
    ∃ r : CompareResponse,
      validate_and_coerce_response
        (.dict [("matchPercent", .int 250), ("matchedSkills", .str "nope")]) =
        .ok r ∧ 0 ≤ r.matchPercent ∧ r.matchPercent ≤ 100 :=
  c1_coercion_bounds _ (by
    intro v hv
    have h2 : some (PyVal.int 250) = some v := hv
    injection h2 with h3
    rw [← h3]
    rfl)

/-! ## Claim C10 -/

/-- C10: a boolean in the `matchPercent` field passes
`isinstance(x, (int, float))` (Python `bool` is a subclass of `int`) and
is used directly rather than triggering derivation from the skill
counts: `int(True) = 1`, `int(False) = 0`, and the clamp leaves both
unchanged, regardless of the skill lists. -/
theorem c10_bool_matchPercent (kvs : List (String × PyVal)) (b : Bool)
    (h : pyGet kvs "matchPercent" = some (.bool b)) :
    ∃ r : CompareResponse, validate_and_coerce_response (.dict kvs) = .ok r ∧
      r.matchPercent = if b then 1 else 0 := by
  have hraw : matchPercentRaw kvs = .ok (if b then 1 else 0) := by
    unfold matchPercentRaw
    rw [h]
    rfl
  have hside : ∀ v, pyGet kvs "matchPercent" = some v → nonFiniteFloat v = false := by
    intro v hv
    rw [h] at hv
    injection hv with hv2
    rw [← hv2]
    rfl
  obtain ⟨mp0, hmp, hok⟩ := coerce_ok kvs hside
  rw [hraw] at hmp
  injection hmp with hmp2
  refine ⟨_, hok, ?_⟩
  show max 0 (min 100 mp0) = if b then 1 else 0
  rw [← hmp2]
  cases b <;> decide

/-- C10 (witness): `matchPercent: true` with two matched and one missing
skill (count-derivation would give 67, the boolean gives 1). -/
theorem c10_bool_matchPercent_witness :
    ∃ r : CompareResponse,
      validate_and_coerce_response
        (.dict [("matchPercent", .bool true),
          ("matchedSkills", .list [.str "a", .str "b"]),
          ("missingSkills", .list [.str "c"])]) = .ok r ∧
      r.matchPercent = if true then 1 else 0 :=
  c10_bool_matchPercent _ true rfl

/-! ## Claim C3 -/

/-- C3 (counterexample): the fallback result for an unrecoverable reply
carries exactly two warnings entries (the unrecoverable notice and the
preview), not exactly one warning as claimed. -/
theorem c3_counterexample :
    process_completion "Sorry, I cannot help." =
      .ok ⟨0, [], [], Option.none,
        some [fallbackWarning1,
          "Response preview: Sorry, I cannot help...."]⟩ ∧
    ([fallbackWarning1,
      "Response preview: Sorry, I cannot help...."].length ≠ 1) :=
  ⟨rfl, by decide⟩

/-- C3 (amended): whenever JSON recovery fails on a (non-empty)
completion text, the pipeline does not error but returns the fallback
`ComparisonResult` with `matchPercent = 0`, both skill lists empty, no
highlights, and exactly two warnings: one stating the reply was
unrecoverable and one holding a 200-character-bounded preview of the raw
reply. -/
theorem c3_fallback (t : String) (hne : t ≠ "")
    (h : extract_json_from_text t = Option.none) :
    process_completion t =
      .ok ⟨0, [], [], Option.none,
        some [fallbackWarning1, fallbackWarning2 t]⟩ := by
  unfold process_completion
  rw [h]

/-- C3 (witness): the spec's scenario C reply. -/
theorem c3_fallback_witness :
    process_completion "Sorry, I cannot help." =
      .ok ⟨0, [], [], Option.none,
        some [fallbackWarning1, fallbackWarning2 "Sorry, I cannot help."]⟩ :=
  c3_fallback _ (by decide) rfl

/-! ## Claim C6 -/

/-- C6 (counterexample): a brace-free string need not recover to absent:
`"42"` parses directly, and the recovery function returns `42` (a
non-mapping) rather than absent. -/
theorem c6_counterexample :
    ('{' ∉ "42".data ∧ '}' ∉ "42".data) ∧
    extract_json_from_text "42" = some (.int 42) ∧
    (extract_json_from_text "42").isSome = true :=
  ⟨⟨by decide, by decide⟩, rfl, rfl⟩

theorem findallD2_eq_nil_of_no_brace {l : List Char} (h : '{' ∉ l) :
    findallD2 l = [] := by
  induction l with
  | nil => rfl
  | cons c rest ih =>
    rw [findallD2_cons]
    have hc : ¬ c = '{' := fun hc => h (hc ▸ List.mem_cons_self c rest)
    rw [if_neg hc]
    exact ih (fun hm => h (List.mem_cons_of_mem c hm))

/-- C6 (amended): for every string with no `'{'` and no `'}'`, the
recovery function returns exactly the full-string JSON parse — absent
when the whole string is not valid JSON, but a bare non-object value
(such as `"42"`) when it is.  The embedding is a total function into
`Option` (all parser exceptions are caught in the source), so it never
raises. -/
theorem c6_no_brace (t : String) (h1 : '{' ∉ t.data) (h2 : '}' ∉ t.data) :
    extract_json_from_text t = json_loads t := by
  unfold extract_json_from_text
  cases hj : json_loads t with
  | some v => rfl
  | none =>
    rw [findallD2_eq_nil_of_no_brace h1]
    have hfb : firstBraceIdx t.data = Option.none := by
      unfold firstBraceIdx
      rw [List.findIdx?_eq_none_iff]
      intro x hx
      rw [decide_eq_false_iff_not]
      intro hEq
      exact h1 (hEq ▸ hx)
    rw [hfb]
    rfl

/-- C6 (witness): prose with no braces recovers to absent. -/
theorem c6_no_brace_witness :
    extract_json_from_text "plain prose answer" =
      json_loads "plain prose answer" :=
  c6_no_brace _ (by decide) (by decide)

/-! ## Claim C7 -/

/-- C7 (counterexample): the highlight cap applies to the first 10 list
*items*, not the first 10 *valid* items: with ten invalid entries
followed by one valid `{term, context}` mapping, the valid item is never
reached and `highlights` is omitted entirely, although the claim as
stated would keep it. -/
theorem c7_counterexample :
    validItem (.dict [("term", .str "T"), ("context", .str "C")]) =
      some ⟨"T", "C"⟩ ∧
    validate_and_coerce_response (.dict [("highlights", .dict [("jdMatches",
      .list [.int 0, .int 0, .int 0, .int 0, .int 0, .int 0, .int 0, .int 0,
        .int 0, .int 0,
        .dict [("term", .str "T"), ("context", .str "C")]])])]) =
      .ok ⟨0, [], [], Option.none, Option.none⟩ := by
  have hA : validItem (.dict [("term", .str "T"), ("context", .str "C")]) =
      some (⟨"T", "C"⟩ : HighlightItem) := rfl
  have hB : validate_and_coerce_response (.dict [("highlights", .dict [("jdMatches",
      .list [.int 0, .int 0, .int 0, .int 0, .int 0, .int 0, .int 0, .int 0,
        .int 0, .int 0,
        .dict [("term", .str "T"), ("context", .str "C")]])])]) =
      .ok (⟨0, [], [], Option.none, Option.none⟩ : CompareResponse) := by
    have h1 : validate_and_coerce_response (.dict [("highlights", .dict [("jdMatches",
      .list [.int 0, .int 0, .int 0, .int 0, .int 0, .int 0, .int 0, .int 0,
        .int 0, .int 0,
        .dict [("term", .str "T"), ("context", .str "C")]])])]) =
        coerceDict [("highlights", .dict [("jdMatches",
      .list [.int 0, .int 0, .int 0, .int 0, .int 0, .int 0, .int 0, .int 0,
        .int 0, .int 0,
        .dict [("term", .str "T"), ("context", .str "C")]])])] := rfl
    rw [h1]
    unfold coerceDict
    rw [show matchPercentRaw [("highlights", .dict [("jdMatches",
      .list [.int 0, .int 0, .int 0, .int 0, .int 0, .int 0, .int 0, .int 0,
        .int 0, .int 0,
        .dict [("term", .str "T"), ("context", .str "C")]])])] = .ok 0 from rfl]
    rfl
  exact ⟨hA, hB⟩

/-- C7 (amended): when the recovered mapping has a mapping-valued
`highlights` with list-valued `jdMatches` and `resumeMatches`, each
sub-list is capped at its first 10 *items* and then filtered down to the
elements that are mappings containing both a `term` and a `context` key
(with `term` truncated to 100 and `context` to 500 characters); if
neither sub-list yields any valid item among its first 10 elements,
`highlights` is omitted entirely, and a sub-list with no valid item is
itself omitted inside `highlights`.  (`matchPercent` restricted to
non-raising values so the engine succeeds, as in C1.) -/
theorem c7_highlights_cap (data hl : List (String × PyVal)) (xs ys : List PyVal)
    (hh : pyGet data "highlights" = some (.dict hl))
    (hjd : pyGet hl "jdMatches" = some (.list xs))
    (hrm : pyGet hl "resumeMatches" = some (.list ys))
    (hmp : ∀ v, pyGet data "matchPercent" = some v → nonFiniteFloat v = false) :
    ∃ r : CompareResponse, validate_and_coerce_response (.dict data) = .ok r ∧
      r.highlights =
        (if ((xs.take 10).filterMap validItem).isEmpty ∧
            ((ys.take 10).filterMap validItem).isEmpty then Option.none
         else some
           ⟨(if ((xs.take 10).filterMap validItem).isEmpty then Option.none
             else some ((xs.take 10).filterMap validItem)),
            (if ((ys.take 10).filterMap validItem).isEmpty then Option.none
             else some ((ys.take 10).filterMap validItem))⟩) := by
  obtain ⟨mp0, hmp0, hok⟩ := coerce_ok data hmp
  refine ⟨_, hok, ?_⟩
  show highlightsOf data = _
  simp only [highlightsOf, hh, hjd, hrm, Option.getD_some]
  by_cases e1 : ((xs.take 10).filterMap validItem).isEmpty
  <;> by_cases e2 : ((ys.take 10).filterMap validItem).isEmpty
  <;> simp [validate_highlights, isListPy, e1, e2]

/-- C7 (witness): one valid jdMatches item, empty resumeMatches. -/
theorem c7_highlights_cap_witness :
    ∃ r : CompareResponse,
      validate_and_coerce_response (.dict [("highlights", .dict
        [("jdMatches", .list [.dict [("term", .str "T"), ("context", .str "C")]]),
         ("resumeMatches", .list [])])]) = .ok r ∧
      r.highlights =
        (if (([PyVal.dict [("term", .str "T"), ("context", .str "C")]].take 10).filterMap
              validItem).isEmpty ∧
            ((([] : List PyVal).take 10).filterMap validItem).isEmpty then Option.none
         else some
           ⟨(if (([PyVal.dict [("term", .str "T"), ("context", .str "C")]].take 10).filterMap
                validItem).isEmpty then Option.none
             else some (([PyVal.dict [("term", .str "T"), ("context", .str "C")]].take 10).filterMap
                validItem)),
            (if ((([] : List PyVal).take 10).filterMap validItem).isEmpty then Option.none
             else some ((([] : List PyVal).take 10).filterMap validItem))⟩) :=
  c7_highlights_cap _ _ _ _ rfl rfl rfl (fun _ hv => nomatch hv)

/-! ## Claim C8 -/

/-- C8 (counterexample): the filename extension is consulted even when
the declared content type is present, specific and recognized: content
type `text/plain` with filename `resume.pdf` selects the PDF extractor
(and the dispatcher invokes it), where the claim says the declared
content type should decide. -/
theorem c8_counterexample :
    selectExtractor "text/plain" "resume.pdf" = some ExtractorKind.pdf ∧
    extract_text_from_file (some "resume.pdf") (some "text/plain") 100 1000 100000
      (fun k => if k = ExtractorKind.pdf then .error "pdf parse failure"
        else .ok "plenty of plain text content here") =
      .error (.exn "pdf parse failure") := ⟨rfl, rfl⟩

/-- C8 (amended): the dispatcher checks formats in the fixed order PDF,
DOCX/DOC, TXT, selecting a format when either its content type matches
or the lowercased filename has its extension — so a filename extension
of an earlier-ordered format overrides a recognized declared content
type of a later one.  A file whose content type and extension are both
unrecognized fails with the explicit unsupported-type `ValueError`
naming the supported set, and this happens only after the size check
passes (an oversized payload fails with the size error regardless of
type). -/
theorem c8_dispatch (fn0 ct0 : Option String) (size maxFS maxTL : Nat)
    (run : ExtractorKind → Except String String) (ct fn : String) :
    (size > maxFS →
      extract_text_from_file fn0 ct0 size maxFS maxTL run =
        .error (.valueError (sizeErrorMsg size maxFS))) ∧
    (size ≤ maxFS →
      selectExtractor (ct0.getD "") (pyFilename fn0) = Option.none →
      extract_text_from_file fn0 ct0 size maxFS maxTL run =
        .error (.valueError (unsupportedTypeMsg (ct0.getD "")))) ∧
    (pyEndsWith (pyLower fn) ".pdf" = true → selectExtractor ct fn = some .pdf) := by
  refine ⟨?_, ?_, ?_⟩
  · intro hsz
    unfold extract_text_from_file
    rw [if_pos hsz]
  · intro hsz hsel
    unfold extract_text_from_file
    rw [if_neg (by omega), hsel]
  · intro hext
    unfold selectExtractor
    rw [hext]
    simp

/-- C8 (witness): an oversized unsupported file gets the size error (size
is checked first); a well-sized unrecognized file gets the
unsupported-type error; a `.pdf` extension always selects PDF. -/
theorem c8_dispatch_witness :
    extract_text_from_file (some "r.jpg") (some "image/jpeg") 50 10 1000
      (fun _ => .ok "") = .error (.valueError (sizeErrorMsg 50 10)) ∧
    extract_text_from_file (some "r.jpg") (some "image/jpeg") 5 10 1000
      (fun _ => .ok "") = .error (.valueError (unsupportedTypeMsg "image/jpeg")) ∧
    selectExtractor "text/plain" "resume.pdf" = some ExtractorKind.pdf :=
  ⟨(c8_dispatch (some "r.jpg") (some "image/jpeg") 50 10 1000 (fun _ => .ok "")
      "" "").1 (by omega),
   (c8_dispatch (some "r.jpg") (some "image/jpeg") 5 10 1000 (fun _ => .ok "")
      "" "").2.1 (by omega) rfl,
   (c8_dispatch Option.none Option.none 0 0 0 (fun _ => .ok "")
      "text/plain" "resume.pdf").2.2 rfl⟩

/-! ## Claim C9 -/

/-- C9 (counterexample): a job-description file whose extraction fails
with an extractor-internal error (not a `ValueError`), with no raw text
supplied, makes the operation fail with HTTP 500 — a server error, not a
client error as claimed. -/
theorem c9_counterexample :
    compare (some ⟨true, .error (.exn "pdf engine crashed")⟩) Option.none true
      (.ok ("resume text", Option.none))
      (fun _ _ => .ok ⟨0, [], [], Option.none, Option.none⟩) =
      .error (.e500 "Failed to extract JD text: pdf engine crashed") ∧
    isClientError (.e500 "Failed to extract JD text: pdf engine crashed") = false :=
  ⟨rfl, rfl⟩

/-- C9 (amended): whenever extraction of a supplied job-description file
fails and truthy raw job-description text was also supplied, the raw
text is used as the fallback and a warning recording the file failure is
attached, appearing in the final result's warnings provided the fallback
text passes the 10-character minimum and the model call succeeds.
Without raw text, a `ValueError`-class failure (size, type, too-short)
is a 400 client error, while an extractor-internal failure is a 500
server error. -/
theorem c9_jd_fallback (m jdtext rt : String) (res : CompareResponse)
    (callModel : String → String → Except PyErr CompareResponse) :
    (jdtext ≠ "" → 10 ≤ (pyStrip jdtext.data).length →
      callModel jdtext rt = .ok res →
      compare (some ⟨true, .error (.valueError m)⟩) (some jdtext) true
        (.ok (rt, Option.none)) callModel =
        .ok { res with
          warnings := some (res.warnings.getD [] ++ [jdFallbackValueWarning m]) }) ∧
    (jdtext ≠ "" → 10 ≤ (pyStrip jdtext.data).length →
      callModel jdtext rt = .ok res →
      compare (some ⟨true, .error (.exn m)⟩) (some jdtext) true
        (.ok (rt, Option.none)) callModel =
        .ok { res with
          warnings := some (res.warnings.getD [] ++ [jdFallbackExnWarning]) }) ∧
    (compare (some ⟨true, .error (.valueError m)⟩) Option.none true
      (.ok (rt, Option.none)) callModel = .error (.e400 m)) ∧
    (compare (some ⟨true, .error (.exn m)⟩) Option.none true
      (.ok (rt, Option.none)) callModel =
      .error (.e500 ("Failed to extract JD text: " ++ m))) := by
  refine ⟨?_, ?_, ?_, ?_⟩
  · intro ht hlen hcall
    have hje : jdtext = "" ↔ False := ⟨ht, False.elim⟩
    unfold compare
    simp [truthyOptStr, hje, Nat.not_lt.mpr hlen, if_neg ht, hcall]
    cases hw : res.warnings <;> simp [hw]
  · intro ht hlen hcall
    have hje : jdtext = "" ↔ False := ⟨ht, False.elim⟩
    unfold compare
    simp [truthyOptStr, hje, Nat.not_lt.mpr hlen, if_neg ht, hcall]
    cases hw : res.warnings <;> simp [hw]
  · unfold compare
    simp [truthyOptStr]
  · unfold compare
    simp [truthyOptStr]

/-- C9 (witness): concrete fallback runs for both failure classes and
both no-text error routes. -/
theorem c9_jd_fallback_witness :
    (compare (some ⟨true, .error (.valueError "too short")⟩)
      (some "Python and AWS required") true (.ok ("resume", Option.none))
      (fun _ _ => .ok ⟨50, ["Python"], ["AWS"], Option.none, Option.none⟩) =
      .ok ⟨50, ["Python"], ["AWS"], Option.none,
        some [jdFallbackValueWarning "too short"]⟩) ∧
    (compare (some ⟨true, .error (.exn "crash")⟩)
      (some "Python and AWS required") true (.ok ("resume", Option.none))
      (fun _ _ => .ok ⟨50, ["Python"], ["AWS"], Option.none, Option.none⟩) =
      .ok ⟨50, ["Python"], ["AWS"], Option.none, some [jdFallbackExnWarning]⟩) ∧
    (compare (some ⟨true, .error (.valueError "too short")⟩) Option.none true
      (.ok ("resume", Option.none))
      (fun _ _ => .ok ⟨50, ["Python"], ["AWS"], Option.none, Option.none⟩) =
      .error (.e400 "too short")) ∧
    (compare (some ⟨true, .error (.exn "crash")⟩) Option.none true
      (.ok ("resume", Option.none))
      (fun _ _ => .ok ⟨50, ["Python"], ["AWS"], Option.none, Option.none⟩) =
      .error (.e500 ("Failed to extract JD text: " ++ "crash"))) :=
  ⟨(c9_jd_fallback "too short" "Python and AWS required" "resume"
      ⟨50, ["Python"], ["AWS"], Option.none, Option.none⟩ _).1
      (by decide) (by decide) rfl,
   (c9_jd_fallback "crash" "Python and AWS required" "resume"
      ⟨50, ["Python"], ["AWS"], Option.none, Option.none⟩ _).2.1
      (by decide) (by decide) rfl,
   (c9_jd_fallback "too short" "x" "resume"
      ⟨50, ["Python"], ["AWS"], Option.none, Option.none⟩ _).2.2.1,
   (c9_jd_fallback "crash" "x" "resume"
      ⟨50, ["Python"], ["AWS"], Option.none, Option.none⟩ _).2.2.2⟩

/-! ## Claim C2 -/

/-- The regex match attempt at a single position: it succeeds exactly on
a `'{'` followed by a depth-at-most-2 balanced brace prefix (see the
discussion at `d2scan`). -/
def regexMatchAt : List Char → Option (List Char × List Char)
  | '{' :: rest =>
    match d2scan false rest with
    | some (m, r) => some ('{' :: m, r)
    | Option.none => Option.none
  | _ => Option.none

theorem d2scan_append {b : Bool} {l m : List Char} (r : List Char)
    (h : d2scan b l = some (m, [])) : d2scan b (l ++ r) = some (m, r) := by
  induction l generalizing b m with
  | nil => simp [d2scan] at h
  | cons c rest ih =>
    rw [d2scan] at h
    rw [List.cons_append, d2scan]
    split_ifs at h ⊢
    · split at h
      · rename_i m' r' hscan
        injection h with h'
        injection h' with hm hr
        subst hr
        rw [ih hscan, ← hm]
      · cases h
    · injection h with h'
      injection h' with hm hr
      subst hm
      subst hr
      rfl
    · split at h
      · rename_i m' r' hscan
        injection h with h'
        injection h' with hm hr
        subst hr
        rw [ih hscan, ← hm]
      · cases h
    · split at h
      · rename_i m' r' hscan
        injection h with h'
        injection h' with hm hr
        subst hr
        rw [ih hscan, ← hm]
      · cases h

theorem findallD2_append_prose {p : List Char} (l : List Char)
    (h : '{' ∉ p) : findallD2 (p ++ l) = findallD2 l := by
  induction p with
  | nil => rfl
  | cons c rest ih =>
    rw [List.cons_append, findallD2_cons]
    have hc : ¬ c = '{' := fun hc => h (hc ▸ List.mem_cons_self c rest)
    rw [if_neg hc]
    exact ih (fun hm => h (List.mem_cons_of_mem c hm))

theorem findSome?_cons_some {α β : Type} (f : α → Option β) (a : α) (l : List α)
    {b : β} (h : f a = some b) : (a :: l).findSome? f = some b := by
  rw [List.findSome?_cons, h]

/-- C2 (counterexample): a string containing a syntactically valid JSON
object on which recovery nevertheless fails: braces inside the object's
string literal defeat the brace pattern, and a stray `'}'` in the
trailing prose defeats the first-`{`-to-last-`}` slice. -/
theorem c2_counterexample :
    json_loads "\x7b\"a\": \"\x7d\"\x7d" = some (.dict [("a", .str "\x7d")]) ∧
    extract_json_from_text ("Note " ++ "\x7b\"a\": \"\x7d\"\x7d" ++ " done\x7d") =
      Option.none := ⟨rfl, rfl⟩

/-- C2 (amended): recovery never raises, and it succeeds in the shape the
brace pattern can see: if the reply is `prose₁ ++ obj ++ prose₂` where
`prose₁` contains no `'{'`, `obj` parses as JSON, and `obj` is accepted
in full by the brace scan (balanced braces, nesting depth at most 2,
counting every brace character including those inside string literals),
then recovery returns the whole-reply parse when the entire reply is
valid JSON, and `obj`'s parse otherwise.  In general — deeper nesting,
braces inside strings, or a `'{'` in the leading prose — recovery may
fail or return a different embedded value (counterexample). -/
theorem c2_recovery (p1 obj p2 : String) (v : PyVal)
    (hp1 : '{' ∉ p1.data)
    (hobj : regexMatchAt obj.data = some (obj.data, []))
    (hv : json_loads obj = some v) :
    extract_json_from_text (p1 ++ obj ++ p2) =
      some ((json_loads (p1 ++ obj ++ p2)).getD v) := by
  unfold extract_json_from_text
  cases hj : json_loads (p1 ++ obj ++ p2) with
  | some w => rfl
  | none =>
    simp only [Option.getD_none]
    obtain ⟨rest, hrest, m, hscan, hm⟩ :
        ∃ rest, obj.data = '{' :: rest ∧
          ∃ m, d2scan false rest = some (m, []) ∧ '{' :: m = obj.data := by
      unfold regexMatchAt at hobj
      split at hobj
      · rename_i rest heq
        split at hobj
        · rename_i m r hscan
          injection hobj with h'
          injection h' with hm hr
          subst hr
          exact ⟨rest, heq, m, hscan, hm⟩
        · cases hobj
      · cases hobj
    have hdata : (p1 ++ obj ++ p2).data = p1.data ++ (obj.data ++ p2.data) := by
      rw [String.data_append, String.data_append, List.append_assoc]
    have hfind : findallD2 (p1 ++ obj ++ p2).data =
        obj.data :: findallD2 p2.data := by
      rw [hdata, findallD2_append_prose _ hp1, hrest, List.cons_append,
        findallD2_cons, if_pos rfl, d2scan_append p2.data hscan]
      have hmr : '{' :: m = '{' :: rest := hm.trans hrest
      injection hmr with hmr1 hmr2
      rw [hmr2]
    rw [hfind]
    have hobjstr : (⟨obj.data⟩ : String) = obj := rfl
    have : (obj.data :: findallD2 p2.data).findSome?
        (fun m => json_loads ⟨m⟩) = some v := by
      apply findSome?_cons_some
      rw [hobjstr, hv]
    rw [this]

/-- C2 (witness): prose-wrapped object with trailing prose containing a
stray closing brace. -/
theorem c2_recovery_witness :
    extract_json_from_text ("Result: " ++ "\x7b\"a\": 1\x7d" ++ " trailing \x7d") =
      some ((json_loads ("Result: " ++ "\x7b\"a\": 1\x7d" ++ " trailing \x7d")).getD
        (.dict [("a", .int 1)])) :=
  c2_recovery "Result: " "\x7b\"a\": 1\x7d" " trailing \x7d" (.dict [("a", .int 1)])
    (by decide) rfl rfl

/-! ## Sanitizer invariants shared by C4 and C5 -/

theorem mem_joinSep {sep : Char} {ws : List (List Char)} {c : Char}
    (h : c ∈ joinSep sep ws) : (∃ w ∈ ws, c ∈ w) ∨ c = sep := by
  induction ws with
  | nil => cases h
  | cons w ws ih =>
    match ws with
    | [] =>
      exact Or.inl ⟨w, List.mem_cons_self w [], h⟩
    | x :: ws' =>
      rw [joinSep_cons₂] at h
      rcases List.mem_append.mp h with hw | hrest
      · exact Or.inl ⟨w, List.mem_cons_self _ _, hw⟩
      · rcases List.mem_cons.mp hrest with rfl | hj
        · exact Or.inr rfl
        · rcases ih hj with ⟨w', hw', hc⟩ | hs
          · exact Or.inl ⟨w', List.mem_cons_of_mem _ hw', hc⟩
          · exact Or.inr hs

theorem mem_pySplitWs : ∀ (n : Nat) (l : List Char), l.length ≤ n →
    ∀ w ∈ pySplitWs l, w ≠ [] ∧ ∀ c ∈ w, c ∈ l ∧ pyIsSpace c = false := by
  intro n
  induction n with
  | zero =>
    intro l h w hw
    have : l = [] := List.length_eq_zero.mp (Nat.le_zero.mp h)
    subst this
    cases hw
  | succ n ih =>
    intro l hlen w hw
    match l with
    | [] => cases hw
    | c :: rest =>
      simp only [List.length_cons] at hlen
      rw [pySplitWs_cons] at hw
      by_cases hc : pyIsSpace c
      · rw [if_pos hc] at hw
        obtain ⟨h1, h2⟩ := ih rest (by omega) w hw
        exact ⟨h1, fun c' hc' =>
          ⟨List.mem_cons_of_mem _ (h2 c' hc').1, (h2 c' hc').2⟩⟩
      · rw [if_neg hc] at hw
        rcases List.mem_cons.mp hw with rfl | hw'
        · refine ⟨by simp, ?_⟩
          intro c' hc'
          rcases List.mem_cons.mp hc' with rfl | ht
          · exact ⟨List.mem_cons_self _ _, by simpa using hc⟩
          · refine ⟨List.mem_cons_of_mem _
              ((List.takeWhile_sublist _).subset ht), ?_⟩
            have := List.mem_takeWhile_imp ht
            simpa using this
        · have hds : (rest.dropWhile (fun x => !pyIsSpace x)).length ≤ n := by
            have := (List.dropWhile_suffix
              (fun x => !pyIsSpace x) (l := rest)).length_le
            omega
          obtain ⟨h1, h2⟩ := ih _ hds w hw'
          exact ⟨h1, fun c' hc' =>
            ⟨List.mem_cons_of_mem _
              ((List.dropWhile_suffix _).sublist.subset (h2 c' hc').1),
             (h2 c' hc').2⟩⟩

theorem mem_splitNl {l : List Char} :
    ∀ w ∈ splitNl l, ∀ c ∈ w, c ∈ l := by
  induction l with
  | nil =>
    intro w hw c hc
    rw [show splitNl [] = [[]] from rfl] at hw
    rcases List.mem_cons.mp hw with rfl | h
    · cases hc
    · cases h
  | cons a rest ih =>
    intro w hw c hc
    rw [splitNl] at hw
    by_cases ha : a = '\n'
    · rw [if_pos ha] at hw
      rcases List.mem_cons.mp hw with rfl | h
      · cases hc
      · exact List.mem_cons_of_mem _ (ih w h c hc)
    · rw [if_neg ha] at hw
      cases hs : splitNl rest with
      | nil =>
        rw [hs] at hw
        rcases List.mem_cons.mp hw with rfl | h2
        · rcases List.mem_cons.mp hc with rfl | h3
          · exact List.mem_cons_self _ _
          · cases h3
        · cases h2
      | cons w0 ws0 =>
        rw [hs] at hw
        rcases List.mem_cons.mp hw with rfl | h
        · rcases List.mem_cons.mp hc with rfl | h2
          · exact List.mem_cons_self _ _
          · exact List.mem_cons_of_mem _
              (ih w0 (hs ▸ List.mem_cons_self _ _) c h2)
        · exact List.mem_cons_of_mem _
            (ih w (hs ▸ List.mem_cons_of_mem _ h) c hc)

theorem mem_collapseLine {w : List Char} {c : Char} (h : c ∈ collapseLine w) :
    (c ∈ w ∧ pyIsSpace c = false) ∨ c = ' ' := by
  rcases mem_joinSep h with ⟨u, hu, hc⟩ | hs
  · obtain ⟨_, h2⟩ := mem_pySplitWs w.length w (le_refl _) u hu
    exact Or.inl (h2 c hc)
  · exact Or.inr hs

theorem mem_collapseLines {l : List Char} {c : Char} (h : c ∈ collapseLines l) :
    c ∈ l ∨ c = ' ' ∨ c = '\n' := by
  unfold collapseLines joinNl at h
  rcases mem_joinSep h with ⟨p, hp, hc⟩ | hs
  · rcases List.mem_map.mp hp with ⟨w, hw, rfl⟩
    rcases mem_collapseLine hc with ⟨hcw, _⟩ | hsp
    · exact Or.inl (mem_splitNl w hw c hcw)
    · exact Or.inr (Or.inl hsp)
  · exact Or.inr (Or.inr hs)

theorem mem_collapseStep {l : List Char} {c : Char} (h : c ∈ collapseStep l) :
    c ∈ l := by
  induction l using collapseStep.induct with
  | case1 rest ih =>
    rw [collapseStep_triple] at h
    rcases List.mem_cons.mp h with rfl | h2
    · exact List.mem_cons_self _ _
    · rcases List.mem_cons.mp h2 with rfl | h3
      · exact List.mem_cons_self _ _
      · exact List.mem_cons_of_mem _ (List.mem_cons_of_mem _
          (List.mem_cons_of_mem _ (ih h3)))
  | case2 c' rest hne ih =>
    rw [collapseStep_cons c' rest hne] at h
    rcases List.mem_cons.mp h with rfl | h2
    · exact List.mem_cons_self _ _
    · exact List.mem_cons_of_mem _ (ih h2)
  | case3 => cases h

theorem mem_collapseNl3 : ∀ (n : Nat) (l : List Char), l.length ≤ n →
    ∀ c ∈ collapseNl3 l, c ∈ l := by
  intro n
  induction n with
  | zero =>
    intro l h c hc
    have : l = [] := List.length_eq_zero.mp (Nat.le_zero.mp h)
    subst this
    rw [show collapseNl3 [] = [] from rfl] at hc
    cases hc
  | succ n ih =>
    intro l hlen c hc
    rw [collapseNl3_eq] at hc
    by_cases ht : hasTriple l
    · rw [if_pos ht] at hc
      have hlt := collapseStep_length_lt ht
      exact mem_collapseStep (ih (collapseStep l) (by omega) c hc)
    · rw [if_neg ht] at hc
      exact hc

theorem collapseNl3_no_triple : ∀ (n : Nat) (l : List Char), l.length ≤ n →
    hasTriple (collapseNl3 l) = false := by
  intro n
  induction n with
  | zero =>
    intro l h
    have : l = [] := List.length_eq_zero.mp (Nat.le_zero.mp h)
    subst this
    rfl
  | succ n ih =>
    intro l hlen
    rw [collapseNl3_eq]
    by_cases ht : hasTriple l
    · rw [if_pos ht]
      have hlt := collapseStep_length_lt ht
      exact ih (collapseStep l) (by omega)
    · rw [if_neg ht]
      simpa using ht

theorem hasTriple_of_decomp {s t l : List Char}
    (h : l = s ++ '\n' :: '\n' :: '\n' :: t) : hasTriple l = true := by
  subst h
  induction s with
  | nil => rfl
  | cons c s ih =>
    rw [List.cons_append, hasTriple.eq_def]
    split
    · rfl
    · rename_i c' rest heq
      injection heq with h1 h2
      rw [← h2]
      exact ih
    · rename_i heq; cases heq

theorem hasTriple_decomp {l : List Char} (h : hasTriple l = true) :
    ∃ s t, l = s ++ '\n' :: '\n' :: '\n' :: t := by
  induction l using collapseStep.induct with
  | case1 rest ih => exact ⟨[], rest, rfl⟩
  | case2 c rest hne ih =>
    rw [hasTriple_cons c rest hne] at h
    obtain ⟨s, t, hst⟩ := ih h
    exact ⟨c :: s, t, by rw [hst]; rfl⟩
  | case3 => cases h

theorem hasTriple_false_of_parts {a l b : List Char}
    (h : hasTriple (a ++ l ++ b) = false) : hasTriple l = false := by
  by_contra hc
  have h1 : hasTriple l = true := by
    cases hl : hasTriple l
    · exact absurd hl hc
    · rfl
  obtain ⟨s, t, hst⟩ := hasTriple_decomp h1
  have : a ++ l ++ b = (a ++ s) ++ '\n' :: '\n' :: '\n' :: (t ++ b) := by
    rw [hst]; simp
  rw [hasTriple_of_decomp this] at h
  cases h

/-- `pyStrip l` sits inside `l` between two all-whitespace pieces, and is
a long-enough piece of `l.dropWhile pyIsSpace` to pin down its head. -/
theorem pyStrip_decomp (l : List Char) :
    ∃ s t, l = s ++ pyStrip l ++ t ∧
      l.dropWhile pyIsSpace = pyStrip l ++ t := by
  refine ⟨l.takeWhile pyIsSpace,
    ((l.dropWhile pyIsSpace).reverse.takeWhile pyIsSpace).reverse, ?_, ?_⟩
  · conv_lhs => rw [← List.takeWhile_append_dropWhile (p := pyIsSpace) (l := l)]
    rw [List.append_assoc]
    congr 1
    conv_lhs => rw [← List.reverse_reverse (l.dropWhile pyIsSpace)]
    conv_lhs => rw [← List.takeWhile_append_dropWhile (p := pyIsSpace)
      (l := (l.dropWhile pyIsSpace).reverse)]
    rw [List.reverse_append]
    rfl
  · conv_lhs => rw [← List.reverse_reverse (l.dropWhile pyIsSpace)]
    conv_lhs => rw [← List.takeWhile_append_dropWhile (p := pyIsSpace)
      (l := (l.dropWhile pyIsSpace).reverse)]
    rw [List.reverse_append]
    rfl

theorem head_dropWhile_false {p : Char → Bool} :
    ∀ {l : List Char} {c : Char} {t : List Char},
      l.dropWhile p = c :: t → p c = false := by
  intro l
  induction l with
  | nil => intro c t h; cases h
  | cons a rest ih =>
    intro c t h
    rw [List.dropWhile_cons] at h
    split_ifs at h with ha
    · exact ih h
    · injection h with h1 h2
      subst h1
      simpa using ha

theorem head_pyStrip_false {l : List Char} {c : Char} {t : List Char}
    (h : pyStrip l = c :: t) : pyIsSpace c = false := by
  obtain ⟨s, t', _, hdrop⟩ := pyStrip_decomp l
  rw [h] at hdrop
  exact head_dropWhile_false hdrop

theorem getLast_pyStrip_false {l : List Char} {c : Char}
    (h : (pyStrip l).getLast? = some c) : pyIsSpace c = false := by
  unfold pyStrip at h
  rw [← List.head?_reverse, List.reverse_reverse] at h
  cases hd : (l.dropWhile pyIsSpace).reverse.dropWhile pyIsSpace with
  | nil => rw [hd] at h; cases h
  | cons c' t' =>
    rw [hd] at h
    have hcc : c' = c := by simpa using h
    subst hcc
    exact head_dropWhile_false hd

theorem head?_take_eq {l : List Char} {n : Nat} {c : Char}
    (h : (l.take n).head? = some c) : l.head? = some c := by
  match n, l with
  | 0, _ => cases h
  | n + 1, [] => cases h
  | n + 1, a :: rest => exact h

/-! ## Claim C4 -/

/-- C4 (counterexample): truncation happens after the final strip, so it
can leave trailing whitespace: `sanitize_text "a b" 2` yields `"a "`,
which ends in a space. -/
theorem c4_counterexample :
    sanitize_text "a b" 2 = ("a ", true) ∧
    ("a " : String).data.getLast? = some ' ' ∧ pyIsSpace ' ' = true :=
  ⟨rfl, rfl, rfl⟩

/-- C4 (amended): for every input string and every non-negative
`maxLength`, the sanitizer output contains no null bytes, contains no run
of 3 or more consecutive newlines, has no leading whitespace, has no
trailing whitespace whenever no truncation occurred (truncation may cut
inside the stripped text and leave trailing whitespace), has length at
most `maxLength`, and reports `truncated = true` iff the pre-truncation
length exceeded `maxLength`. -/
theorem c4_sanitize (s : String) (ml : Nat) :
    '\x00' ∉ (sanitize_text s ml).1.data ∧
    hasTriple (sanitize_text s ml).1.data = false ∧
    (∀ c, (sanitize_text s ml).1.data.head? = some c → pyIsSpace c = false) ∧
    ((sanitize_text s ml).2 = false →
      ∀ c, (sanitize_text s ml).1.data.getLast? = some c → pyIsSpace c = false) ∧
    (sanitize_text s ml).1.length ≤ ml ∧
    ((sanitize_text s ml).2 = true ↔ ml < (sanitizeCore s.data).length) := by
  have hz1 : '\x00' ∉ sanitizeCore s.data := by
    intro hmem
    unfold sanitizeCore at hmem
    obtain ⟨s', t', hdec, _⟩ :=
      pyStrip_decomp (collapseNl3 (collapseLines (removeNulls s.data)))
    have h2 : '\x00' ∈ collapseNl3 (collapseLines (removeNulls s.data)) := by
      rw [hdec]
      exact List.mem_append.mpr (Or.inl (List.mem_append.mpr (Or.inr hmem)))
    have h3 := mem_collapseNl3 _ _ (le_refl _) _ h2
    rcases mem_collapseLines h3 with h4 | h4 | h4
    · rcases List.mem_filter.mp h4 with ⟨_, hne⟩
      simp at hne
    · cases h4
    · cases h4
  have hz2 : hasTriple (sanitizeCore s.data) = false := by
    unfold sanitizeCore
    obtain ⟨s', t', hdec, _⟩ :=
      pyStrip_decomp (collapseNl3 (collapseLines (removeNulls s.data)))
    have hv := collapseNl3_no_triple _
      (collapseLines (removeNulls s.data)) (le_refl _)
    rw [hdec] at hv
    exact hasTriple_false_of_parts hv
  have hz3 : ∀ c, (sanitizeCore s.data).head? = some c → pyIsSpace c = false := by
    intro c hc
    unfold sanitizeCore at hc
    cases hps : pyStrip (collapseNl3 (collapseLines (removeNulls s.data))) with
    | nil => rw [hps] at hc; cases hc
    | cons c' t =>
      rw [hps] at hc
      have hcc : c' = c := by simpa using hc
      subst hcc
      exact head_pyStrip_false hps
  have hz4 : ∀ c, (sanitizeCore s.data).getLast? = some c → pyIsSpace c = false := by
    intro c hc
    exact getLast_pyStrip_false hc
  unfold sanitize_text
  by_cases htr : (sanitizeCore s.data).length > ml
  · rw [if_pos htr]
    refine ⟨?_, ?_, ?_, ?_, ?_, ?_⟩
    · intro hmem
      exact hz1 (List.mem_of_mem_take hmem)
    · have hparts : [] ++ (sanitizeCore s.data).take ml ++
          (sanitizeCore s.data).drop ml = sanitizeCore s.data := by
        simp [List.take_append_drop]
      have := hz2
      rw [← hparts] at this
      exact hasTriple_false_of_parts this
    · intro c hc
      exact hz3 c (head?_take_eq hc)
    · intro hf
      cases hf
    · show ((sanitizeCore s.data).take ml).length ≤ ml
      simp [List.length_take]
    · simpa using htr
  · rw [if_neg htr]
    refine ⟨hz1, hz2, hz3, fun _ => hz4, ?_, ?_⟩
    · show (sanitizeCore s.data).length ≤ ml
      omega
    · constructor
      · intro hf; cases hf
      · intro hlt; omega

/-- C4 (witness): a concrete input exercising null removal, whitespace
collapsing, newline collapsing and stripping without truncation. -/
theorem c4_sanitize_witness :
    '\x00' ∉ (sanitize_text "  He\x00llo   World \n\n\n\n End  " 1000).1.data ∧
    hasTriple (sanitize_text "  He\x00llo   World \n\n\n\n End  " 1000).1.data = false ∧
    (∀ c, (sanitize_text "  He\x00llo   World \n\n\n\n End  " 1000).1.data.head? =
      some c → pyIsSpace c = false) ∧
    ((sanitize_text "  He\x00llo   World \n\n\n\n End  " 1000).2 = false →
      ∀ c, (sanitize_text "  He\x00llo   World \n\n\n\n End  " 1000).1.data.getLast? =
        some c → pyIsSpace c = false) ∧
    (sanitize_text "  He\x00llo   World \n\n\n\n End  " 1000).1.length ≤ 1000 ∧
    ((sanitize_text "  He\x00llo   World \n\n\n\n End  " 1000).2 = true ↔
      1000 < (sanitizeCore ("  He\x00llo   World \n\n\n\n End  " : String).data).length) :=
  c4_sanitize "  He\x00llo   World \n\n\n\n End  " 1000

/-! ## Line canonicity (towards C5)

A string is unchanged by the sanitizer's per-line whitespace collapse
exactly when every whitespace character in it is `' '` or `'\n'`, no
space is adjacent to another whitespace character, and neither end is a
space.  `OkPairs`/`WsKind` capture the local conditions;
`collapseLines_fixed` below proves the fixed-point property. -/

/-- The allowed adjacencies: a space may not touch any whitespace
character (in either order). -/
def okPair (a b : Char) : Bool :=
  !((a = ' ' && pyIsSpace b) || (pyIsSpace a && b = ' '))

def OkPairs (l : List Char) : Prop :=
  List.Chain' (fun a b => okPair a b = true) l

def WsKind (l : List Char) : Prop :=
  ∀ c ∈ l, pyIsSpace c = true → c = ' ' ∨ c = '\n'

theorem ne_space_of_nonspace {a : Char} (ha : pyIsSpace a = false) : a ≠ ' ' := by
  intro h
  rw [h] at ha
  cases ha

theorem okPair_left {a b : Char} (ha : pyIsSpace a = false) :
    okPair a b = true := by
  have h1 := ne_space_of_nonspace ha
  simp [okPair, ha, h1]

theorem okPair_right {a b : Char} (hb : pyIsSpace b = false) :
    okPair a b = true := by
  have h1 := ne_space_of_nonspace hb
  simp [okPair, hb, h1]

theorem okPair_nl_left {b : Char} (h : okPair '\n' b = true) : b ≠ ' ' := by
  intro hb
  subst hb
  simp [okPair, pyIsSpace] at h

theorem okPair_nl_right {a : Char} (h : okPair a '\n' = true) : a ≠ ' ' := by
  intro ha
  subst ha
  simp [okPair, pyIsSpace] at h

theorem okPairs_of_parts {a l b : List Char} (h : OkPairs (a ++ l ++ b)) :
    OkPairs l :=
  (List.chain'_append.mp (List.chain'_append.mp h).1).2.1

theorem okPairs_all_nonspace {w : List Char}
    (h : ∀ c ∈ w, pyIsSpace c = false) : OkPairs w := by
  induction w with
  | nil => exact List.chain'_nil
  | cons a rest ih =>
    refine List.Chain'.cons' (ih ?_) ?_
    · exact fun c hc => h c (List.mem_cons_of_mem _ hc)
    · intro y _
      exact okPair_left (h a (List.mem_cons_self _ _))

theorem ne_nil_of_head?_some {l : List Char} {c : Char}
    (h : l.head? = some c) : l ≠ [] := by
  intro hn
  rw [hn] at h
  cases h

theorem getLast?_cons_isSome (c : Char) (t : List Char) :
    ∃ z, (c :: t).getLast? = some z := by
  induction t generalizing c with
  | nil => exact ⟨c, rfl⟩
  | cons d t ih =>
    rw [List.getLast?_cons_cons]
    exact ih d

theorem getLast?_append_right {a b : List Char} (h : b ≠ []) :
    (a ++ b).getLast? = b.getLast? := by
  match b, h with
  | c :: t, _ =>
    obtain ⟨z, hz⟩ := getLast?_cons_isSome c t
    rw [List.getLast?_append, hz]
    rfl

theorem joinSep_head_of_ne_nil {sep : Char} {w : List Char} (ws : List (List Char))
    (hw : w ≠ []) : (joinSep sep (w :: ws)).head? = w.head? := by
  match ws with
  | [] => rfl
  | x :: ws =>
    rw [joinSep_cons₂, List.head?_append]
    match w, hw with
    | c :: t, _ => rfl

/-- The word-level join: space-separated nonempty all-nonspace words have
only allowed adjacencies and nonspace ends. -/
theorem join_words_props : ∀ (ws : List (List Char)),
    (∀ w ∈ ws, w ≠ [] ∧ ∀ c ∈ w, pyIsSpace c = false) →
    OkPairs (joinSep ' ' ws) ∧
    (∀ c, (joinSep ' ' ws).head? = some c → pyIsSpace c = false) ∧
    (∀ c, (joinSep ' ' ws).getLast? = some c → pyIsSpace c = false) := by
  intro ws
  induction ws with
  | nil =>
    intro _
    refine ⟨List.chain'_nil, ?_, ?_⟩
    · intro c hc
      cases hc
    · intro c hc
      cases hc
  | cons w ws ih =>
    intro h
    obtain ⟨hwne, hwc⟩ := h w (List.mem_cons_self _ _)
    have hrest := fun w' hw' => h w' (List.mem_cons_of_mem _ hw')
    match ws with
    | [] =>
      refine ⟨okPairs_all_nonspace hwc, ?_, ?_⟩
      · intro c hc
        exact hwc c (List.mem_of_mem_head? hc)
      · intro c hc
        exact hwc c (List.mem_of_mem_getLast? hc)
    | x :: ws' =>
      obtain ⟨ihc, ihh, ihl⟩ := ih hrest
      have hxne : x ≠ [] := (hrest x (List.mem_cons_self _ _)).1
      have hheadJ : (joinSep ' ' (x :: ws')).head? = x.head? :=
        joinSep_head_of_ne_nil ws' hxne
      have hJne : joinSep ' ' (x :: ws') ≠ [] := by
        match x, hxne with
        | d :: t, _ => exact ne_nil_of_head?_some (hheadJ.trans rfl)
      refine ⟨?_, ?_, ?_⟩
      · rw [joinSep_cons₂]
        refine List.chain'_append.mpr ⟨okPairs_all_nonspace hwc, ?_, ?_⟩
        · refine List.Chain'.cons' ihc ?_
          intro y hy
          rw [hheadJ] at hy
          exact okPair_right ((hrest x (List.mem_cons_self _ _)).2 y
            (List.mem_of_mem_head? hy))
        · intro a ha b hb
          have hb' : ' ' = b := by simpa using hb
          subst hb'
          exact okPair_left (hwc a (List.mem_of_mem_getLast? ha))
      · intro c hc
        rw [joinSep_cons₂, List.head?_append] at hc
        match w, hwne with
        | d :: t, _ =>
          have hdc : d = c := by simpa using hc
          subst hdc
          exact hwc d (List.mem_cons_self _ _)
      · intro c hc
        rw [joinSep_cons₂,
          getLast?_append_right (a := w) (by simp),
          show (' ' :: joinSep ' ' (x :: ws')).getLast? =
            (joinSep ' ' (x :: ws')).getLast? from ?_] at hc
        · exact ihl c hc
        · match hJ : joinSep ' ' (x :: ws'), hJne with
          | e :: tJ, _ => exact List.getLast?_cons_cons

theorem okPair_space_left {b : Char} (h : okPair ' ' b = true) :
    pyIsSpace b = false := by
  cases hx : pyIsSpace b
  · rfl
  · simp [okPair, hx] at h

theorem okPair_to_nl {a : Char} (h : a ≠ ' ') : okPair a '\n' = true := by
  have hd : (decide (a = ' ')) = false := decide_eq_false h
  have he : (decide ('\n' = ' ')) = false := by decide
  simp [okPair, hd, he]

theorem okPair_from_nl {b : Char} (h : b ≠ ' ') : okPair '\n' b = true := by
  have hd : (decide (b = ' ')) = false := decide_eq_false h
  have he : (decide ('\n' = ' ')) = false := by decide
  simp [okPair, hd, he]

/-- `collapseLine` output has only allowed adjacencies and nonspace ends. -/
theorem collapseLine_props (w : List Char) :
    OkPairs (collapseLine w) ∧
    (∀ c, (collapseLine w).head? = some c → pyIsSpace c = false) ∧
    (∀ c, (collapseLine w).getLast? = some c → pyIsSpace c = false) :=
  join_words_props (pySplitWs w) (fun u hu =>
    ⟨(mem_pySplitWs w.length w (le_refl _) u hu).1,
     fun c hc => ((mem_pySplitWs w.length w (le_refl _) u hu).2 c hc).2⟩)

/-- The line-level join: newline-separated pieces with allowed adjacencies
and nonspace ends (possibly empty pieces) joined by `'\n'` again have
allowed adjacencies, and neither end of the join is `' '`. -/
theorem join_lines_props : ∀ (L : List (List Char)),
    (∀ J ∈ L, OkPairs J ∧
      (∀ c, J.head? = some c → pyIsSpace c = false) ∧
      (∀ c, J.getLast? = some c → pyIsSpace c = false)) →
    OkPairs (joinSep '\n' L) ∧
    (∀ c, (joinSep '\n' L).head? = some c → c ≠ ' ') ∧
    (∀ c, (joinSep '\n' L).getLast? = some c → c ≠ ' ') := by
  intro L
  induction L with
  | nil =>
    intro _
    refine ⟨List.chain'_nil, ?_, ?_⟩
    · intro c hc
      cases hc
    · intro c hc
      cases hc
  | cons J L ih =>
    intro h
    obtain ⟨hJok, hJh, hJl⟩ := h J (List.mem_cons_self _ _)
    have hrest := fun J' hJ' => h J' (List.mem_cons_of_mem _ hJ')
    match L with
    | [] =>
      refine ⟨hJok, ?_, ?_⟩
      · intro c hc
        exact ne_space_of_nonspace (hJh c hc)
      · intro c hc
        exact ne_space_of_nonspace (hJl c hc)
    | x :: L' =>
      obtain ⟨ihc, ihh, ihl⟩ := ih hrest
      refine ⟨?_, ?_, ?_⟩
      · rw [joinSep_cons₂]
        refine List.chain'_append.mpr ⟨hJok, ?_, ?_⟩
        · refine List.Chain'.cons' ihc ?_
          intro y hy
          exact okPair_from_nl (ihh y hy)
        · intro a ha b hb
          have hb' : '\n' = b := by simpa using hb
          subst hb'
          exact okPair_to_nl (ne_space_of_nonspace (hJl a ha))
      · intro c hc
        rw [joinSep_cons₂, List.head?_append] at hc
        match J with
        | [] =>
          have hcn : '\n' = c := by simpa using hc
          subst hcn
          decide
        | d :: t =>
          have hdc : d = c := by simpa using hc
          subst hdc
          exact ne_space_of_nonspace (hJh d rfl)
      · intro c hc
        rw [joinSep_cons₂, getLast?_append_right (a := J) (by simp)] at hc
        cases hJM : joinSep '\n' (x :: L') with
        | nil =>
          rw [hJM] at hc
          have hcn : '\n' = c := by simpa using hc
          subst hcn
          decide
        | cons e tJ =>
          rw [hJM, List.getLast?_cons_cons, ← hJM] at hc
          exact ihl c hc

/-- `collapseLines` output has only allowed adjacencies and does not begin
or end with `' '`. -/
theorem collapseLines_props (l : List Char) :
    OkPairs (collapseLines l) ∧
    (∀ c, (collapseLines l).head? = some c → c ≠ ' ') ∧
    (∀ c, (collapseLines l).getLast? = some c → c ≠ ' ') :=
  join_lines_props ((splitNl l).map collapseLine) (fun J hJ => by
    rcases List.mem_map.mp hJ with ⟨w, _, rfl⟩
    exact collapseLine_props w)

/-- Every whitespace character in `collapseLines` output is `' '` or `'\n'`. -/
theorem wsKind_collapseLines {l : List Char} {c : Char} (hc : c ∈ collapseLines l)
    (hs : pyIsSpace c = true) : c = ' ' ∨ c = '\n' := by
  unfold collapseLines joinNl at hc
  rcases mem_joinSep hc with ⟨p, hp, hcp⟩ | rfl
  · rcases List.mem_map.mp hp with ⟨w, hw, rfl⟩
    rcases mem_collapseLine hcp with ⟨_, hns⟩ | hsp
    · rw [hns] at hs
      cases hs
    · exact Or.inl hsp
  · exact Or.inr rfl

theorem head?_collapseStep (l : List Char) : (collapseStep l).head? = l.head? := by
  induction l using collapseStep.induct with
  | case1 rest ih => rw [collapseStep_triple]; rfl
  | case2 c rest hne ih => rw [collapseStep_cons c rest hne]; rfl
  | case3 => rfl

theorem okPairs_collapseStep {l : List Char} (h : OkPairs l) :
    OkPairs (collapseStep l) := by
  induction l using collapseStep.induct with
  | case1 rest ih =>
    rw [collapseStep_triple]
    have h1 : OkPairs ('\n' :: '\n' :: rest) := (List.chain'_cons.mp h).2
    have h2 : OkPairs ('\n' :: rest) := (List.chain'_cons.mp h1).2
    refine List.chain'_cons.mpr ⟨by decide, ?_⟩
    refine List.Chain'.cons' (ih (List.chain'_cons'.mp h2).2) ?_
    intro y hy
    rw [head?_collapseStep] at hy
    exact (List.chain'_cons'.mp h2).1 y hy
  | case2 c rest hne ih =>
    rw [collapseStep_cons c rest hne]
    refine List.Chain'.cons' (ih (List.chain'_cons'.mp h).2) ?_
    intro y hy
    rw [head?_collapseStep] at hy
    exact (List.chain'_cons'.mp h).1 y hy
  | case3 => exact List.chain'_nil

theorem okPairs_collapseNl3 : ∀ (n : Nat) (l : List Char), l.length ≤ n →
    OkPairs l → OkPairs (collapseNl3 l) := by
  intro n
  induction n with
  | zero =>
    intro l h hok
    have : l = [] := List.length_eq_zero.mp (Nat.le_zero.mp h)
    subst this
    exact List.chain'_nil
  | succ n ih =>
    intro l hlen hok
    rw [collapseNl3_eq]
    by_cases ht : hasTriple l
    · rw [if_pos ht]
      have hlt := collapseStep_length_lt ht
      exact ih (collapseStep l) (by omega) (okPairs_collapseStep hok)
    · rw [if_neg ht]
      exact hok

theorem mem_pyStrip {l : List Char} {c : Char} (h : c ∈ pyStrip l) : c ∈ l := by
  obtain ⟨s, t, hl, _⟩ := pyStrip_decomp l
  rw [hl]
  simp [h]

/-- A list with nonspace ends is fixed by `pyStrip`. -/
theorem pyStrip_fixed {l : List Char}
    (hh : ∀ c, l.head? = some c → pyIsSpace c = false)
    (hl : ∀ c, l.getLast? = some c → pyIsSpace c = false) :
    pyStrip l = l := by
  have h1 : l.dropWhile pyIsSpace = l := by
    match l with
    | [] => rfl
    | c :: t =>
      rw [List.dropWhile_cons, if_neg (by simp [hh c rfl])]
  unfold pyStrip
  rw [h1]
  have h2 : l.reverse.dropWhile pyIsSpace = l.reverse := by
    cases hr : l.reverse with
    | nil => rfl
    | cons c t =>
      have hlc : l.getLast? = some c := by
        rw [← List.head?_reverse, hr]
        rfl
      rw [List.dropWhile_cons, if_neg (by simp [hl c hlc])]
  rw [h2, List.reverse_reverse]

theorem splitNl_ne_nil (l : List Char) : splitNl l ≠ [] := by
  match l with
  | [] => simp [splitNl]
  | c :: rest =>
    rw [splitNl]
    split_ifs
    · simp
    · cases hs : splitNl rest <;> simp

theorem splitNl_no_nl : ∀ {l : List Char}, '\n' ∉ l → splitNl l = [l] := by
  intro l
  induction l with
  | nil => intro _; rfl
  | cons c rest ih =>
    intro h
    have hc : c ≠ '\n' := fun hc => h (hc ▸ List.mem_cons_self _ _)
    have hr : '\n' ∉ rest := fun hr => h (List.mem_cons_of_mem _ hr)
    rw [splitNl, if_neg hc, ih hr]

theorem splitNl_append_nl : ∀ {p : List Char} (q : List Char), '\n' ∉ p →
    splitNl (p ++ '\n' :: q) = p :: splitNl q := by
  intro p
  induction p with
  | nil =>
    intro q _
    rw [List.nil_append, splitNl, if_pos rfl]
  | cons c p' ih =>
    intro q h
    have hc : c ≠ '\n' := fun hc => h (hc ▸ List.mem_cons_self _ _)
    have hp' : '\n' ∉ p' := fun hr => h (List.mem_cons_of_mem _ hr)
    rw [List.cons_append, splitNl, if_neg hc, ih q hp']

theorem first_nl_decomp : ∀ (l : List Char),
    '\n' ∉ l ∨ ∃ p q, l = p ++ '\n' :: q ∧ '\n' ∉ p := by
  intro l
  induction l with
  | nil => exact Or.inl (by simp)
  | cons c rest ih =>
    by_cases hc : c = '\n'
    · subst hc
      exact Or.inr ⟨[], rest, rfl, by simp⟩
    · rcases ih with hn | ⟨p, q, hl, hp⟩
      · refine Or.inl ?_
        intro hmem
        rcases List.mem_cons.mp hmem with h1 | h2
        · exact hc h1.symm
        · exact hn h2
      · refine Or.inr ⟨c :: p, q, by rw [hl]; rfl, ?_⟩
        intro hmem
        rcases List.mem_cons.mp hmem with h1 | h2
        · exact hc h1.symm
        · exact hp h2

/-- A line with all whitespace equal to `' '`, no two adjacent spaces and
nonspace ends is fixed by the per-line whitespace collapse. -/
theorem collapseLine_fixed : ∀ (n : Nat) (w : List Char), w.length ≤ n →
    (∀ c ∈ w, pyIsSpace c = true → c = ' ') →
    OkPairs w →
    (∀ c, w.head? = some c → c ≠ ' ') →
    (∀ c, w.getLast? = some c → c ≠ ' ') →
    collapseLine w = w := by
  intro n
  induction n with
  | zero =>
    intro w h _ _ _ _
    have : w = [] := List.length_eq_zero.mp (Nat.le_zero.mp h)
    subst this
    rfl
  | succ n ih =>
    intro w hlen hws hok hh hl
    match w with
    | [] => rfl
    | c :: rest =>
      have hcsp : c ≠ ' ' := hh c rfl
      have hcns : pyIsSpace c = false := by
        cases hx : pyIsSpace c
        · rfl
        · exact absurd (hws c (List.mem_cons_self _ _) hx) hcsp
      show joinSep ' ' (pySplitWs (c :: rest)) = c :: rest
      rw [pySplitWs_cons, if_neg (by simp [hcns])]
      have hsplit : rest.takeWhile (fun x => !pyIsSpace x) ++
          rest.dropWhile (fun x => !pyIsSpace x) = rest :=
        List.takeWhile_append_dropWhile _ _
      cases hd : rest.dropWhile (fun x => !pyIsSpace x) with
      | nil =>
        have hsp : rest.takeWhile (fun x => !pyIsSpace x) = rest := by
          conv_rhs => rw [← hsplit]
          rw [hd, List.append_nil]
        rw [hsp]
        rfl
      | cons s d' =>
        have hssp : pyIsSpace s = true := by
          have := head_dropWhile_false hd
          simpa using this
        have hsmem : s ∈ rest := by
          have hsub := (List.dropWhile_suffix (fun x => !pyIsSpace x)
            (l := rest)).sublist.subset
          exact hsub (hd ▸ List.mem_cons_self _ _)
        have hs_sp : s = ' ' := hws s (List.mem_cons_of_mem _ hsmem) hssp
        subst hs_sp
        obtain ⟨t, ht⟩ : ∃ t, rest.takeWhile (fun x => !pyIsSpace x) = t := ⟨_, rfl⟩
        rw [ht, hd] at hsplit
        rw [ht]
        subst hsplit
        cases d' with
        | nil =>
          exfalso
          have hwlast : (c :: (t ++ [' '])).getLast? = some ' ' := by
            rw [show c :: (t ++ [' ']) = (c :: t) ++ [' '] from rfl,
              getLast?_append_right (by simp)]
            rfl
          exact hl ' ' hwlast rfl
        | cons e d'' =>
          have hre : c :: (t ++ ' ' :: e :: d'') = (c :: t) ++ (' ' :: e :: d'') := rfl
          have hchain2 : OkPairs (' ' :: e :: d'') :=
            (List.chain'_append.mp (hre ▸ hok)).2.1
          have hens : pyIsSpace e = false :=
            okPair_space_left (List.chain'_cons.mp hchain2).1
          have hIH : collapseLine (e :: d'') = e :: d'' := by
            refine ih (e :: d'') ?_ ?_ ?_ ?_ ?_
            · simp only [List.length_cons, List.length_append] at hlen ⊢
              omega
            · intro x hx hxs
              refine hws x ?_ hxs
              simp [hx]
            · have hwdec2 : c :: (t ++ ' ' :: e :: d'') =
                  ((c :: t) ++ [' ']) ++ (e :: d'') ++ [] := by
                simp
              exact okPairs_of_parts (hwdec2 ▸ hok)
            · intro x hx
              have hxe : e = x := by simpa using hx
              subst hxe
              exact ne_space_of_nonspace hens
            · intro x hx
              refine hl x ?_
              rw [hre, getLast?_append_right (by simp), List.getLast?_cons_cons]
              exact hx
          have htail : pySplitWs (' ' :: e :: d'') = pySplitWs (e :: d'') := by
            rw [pySplitWs_cons, if_pos (by decide : pyIsSpace ' ' = true)]
          have htne : pySplitWs (e :: d'') ≠ [] := by
            rw [pySplitWs_cons, if_neg (by simp [hens])]
            simp
          rw [htail, joinSep_cons_of_ne_nil ' ' _ htne]
          have hIH' : joinSep ' ' (pySplitWs (e :: d'')) = e :: d'' := hIH
          rw [hIH']
          exact hre.symm

theorem joinNl_splitNl (l : List Char) : joinNl (splitNl l) = l := by
  induction l with
  | nil => rfl
  | cons c rest ih =>
    by_cases hc : c = '\n'
    · subst hc
      rw [splitNl, if_pos rfl]
      rw [show joinNl ([] :: splitNl rest) = [] ++ '\n' :: joinNl (splitNl rest) from
        joinSep_cons_of_ne_nil '\n' [] (splitNl_ne_nil rest)]
      rw [List.nil_append, ih]
    · rw [splitNl, if_neg hc]
      cases hs : splitNl rest with
      | nil => exact absurd hs (splitNl_ne_nil rest)
      | cons w ws =>
        rw [hs] at ih
        cases ws with
        | nil =>
          show c :: w = c :: rest
          rw [show (joinNl [w] : List Char) = w from rfl] at ih
          rw [ih]
        | cons x ws' =>
          show (c :: w) ++ '\n' :: joinSep '\n' (x :: ws') = c :: rest
          rw [show (c :: w) ++ '\n' :: joinSep '\n' (x :: ws') =
            c :: (w ++ '\n' :: joinSep '\n' (x :: ws')) from rfl]
          rw [show w ++ '\n' :: joinSep '\n' (x :: ws') = joinNl (w :: x :: ws') from rfl,
            ih]

/-- Text whose whitespace is only `' '`/`'\n'`, with no space adjacent to
other whitespace and no `' '` at either end, is fixed by the line-collapse
stage. -/
theorem collapseLines_fixed : ∀ (n : Nat) (l : List Char), l.length ≤ n →
    (∀ c ∈ l, pyIsSpace c = true → c = ' ' ∨ c = '\n') →
    OkPairs l →
    (∀ c, l.head? = some c → c ≠ ' ') →
    (∀ c, l.getLast? = some c → c ≠ ' ') →
    collapseLines l = l := by
  intro n
  induction n with
  | zero =>
    intro l h _ _ _ _
    have : l = [] := List.length_eq_zero.mp (Nat.le_zero.mp h)
    subst this
    rfl
  | succ n ih =>
    intro l hlen hws hok hh hl
    rcases first_nl_decomp l with hn | ⟨p, q, hlq, hp⟩
    · show joinNl (List.map collapseLine (splitNl l)) = l
      rw [splitNl_no_nl hn]
      show collapseLine l = l
      refine collapseLine_fixed l.length l (le_refl _) ?_ hok hh hl
      intro x hx hxs
      rcases hws x hx hxs with h1 | h2
      · exact h1
      · exact absurd (h2 ▸ hx) hn
    · subst hlq
      show joinNl (List.map collapseLine (splitNl (p ++ '\n' :: q))) = p ++ '\n' :: q
      rw [splitNl_append_nl q hp]
      have hmapne : (splitNl q).map collapseLine ≠ [] := by
        intro hmn
        exact splitNl_ne_nil q (List.map_eq_nil_iff.mp hmn)
      rw [show List.map collapseLine (p :: splitNl q) =
        collapseLine p :: (splitNl q).map collapseLine from rfl]
      rw [show joinNl (collapseLine p :: (splitNl q).map collapseLine) =
        collapseLine p ++ '\n' :: joinNl ((splitNl q).map collapseLine) from
        joinSep_cons_of_ne_nil '\n' _ hmapne]
      have hchainApp := List.chain'_append.mp hok
      have hokp : OkPairs p := hchainApp.1
      have hchain_nl : OkPairs ('\n' :: q) := hchainApp.2.1
      have hjun := hchainApp.2.2
      have hclp : collapseLine p = p := by
        refine collapseLine_fixed p.length p (le_refl _) ?_ hokp ?_ ?_
        · intro x hx hxs
          rcases hws x (List.mem_append_left _ hx) hxs with h1 | h2
          · exact h1
          · exact absurd (h2 ▸ hx) hp
        · intro x hx
          refine hh x ?_
          rw [List.head?_append, hx]
          rfl
        · intro x hx
          exact okPair_nl_right (hjun x hx '\n' rfl)
      have hclq : collapseLines q = q := by
        refine ih q ?_ ?_ (List.chain'_cons'.mp hchain_nl).2 ?_ ?_
        · simp only [List.length_append, List.length_cons] at hlen
          omega
        · intro x hx hxs
          exact hws x (List.mem_append_right _ (List.mem_cons_of_mem _ hx)) hxs
        · intro x hx
          exact okPair_nl_left ((List.chain'_cons'.mp hchain_nl).1 x hx)
        · intro x hx
          refine hl x ?_
          rw [getLast?_append_right (a := p) (by simp)]
          cases q with
          | nil => cases hx
          | cons y q' =>
            rw [List.getLast?_cons_cons]
            exact hx
      rw [hclp, show joinNl ((splitNl q).map collapseLine) = collapseLines q from rfl,
        hclq]

/-- The sanitizer core (everything before truncation) is idempotent. -/
theorem sanitizeCore_fixed (l : List Char) :
    sanitizeCore (sanitizeCore l) = sanitizeCore l := by
  have hzx : ∀ c ∈ sanitizeCore l, c ∈ collapseNl3 (collapseLines (removeNulls l)) :=
    fun c hc => mem_pyStrip hc
  have hxy : ∀ c ∈ collapseNl3 (collapseLines (removeNulls l)),
      c ∈ collapseLines (removeNulls l) :=
    fun c hc => mem_collapseNl3 (collapseLines (removeNulls l)).length _ (le_refl _) c hc
  have hWs : ∀ c ∈ sanitizeCore l, pyIsSpace c = true → c = ' ' ∨ c = '\n' :=
    fun c hc hs => wsKind_collapseLines (hxy c (hzx c hc)) hs
  have hOkz : OkPairs (sanitizeCore l) := by
    have hOky : OkPairs (collapseLines (removeNulls l)) :=
      (collapseLines_props (removeNulls l)).1
    have hOkx : OkPairs (collapseNl3 (collapseLines (removeNulls l))) :=
      okPairs_collapseNl3 (collapseLines (removeNulls l)).length _ (le_refl _) hOky
    obtain ⟨s, t, hdec, _⟩ := pyStrip_decomp (collapseNl3 (collapseLines (removeNulls l)))
    exact okPairs_of_parts (hdec ▸ hOkx)
  have hHead : ∀ c, (sanitizeCore l).head? = some c → pyIsSpace c = false := by
    intro c hc
    cases hz : sanitizeCore l with
    | nil => rw [hz] at hc; cases hc
    | cons a tl =>
      rw [hz] at hc
      have hac : a = c := by simpa using hc
      subst hac
      exact head_pyStrip_false hz
  have hLast : ∀ c, (sanitizeCore l).getLast? = some c → pyIsSpace c = false := by
    intro c hc
    exact getLast_pyStrip_false hc
  have hTriple : hasTriple (sanitizeCore l) = false := by
    have hx_nt : hasTriple (collapseNl3 (collapseLines (removeNulls l))) = false :=
      collapseNl3_no_triple (collapseLines (removeNulls l)).length _ (le_refl _)
    obtain ⟨s, t, hdec, _⟩ := pyStrip_decomp (collapseNl3 (collapseLines (removeNulls l)))
    exact hasTriple_false_of_parts (hdec ▸ hx_nt)
  have hNoNull : removeNulls (sanitizeCore l) = sanitizeCore l := by
    apply List.filter_eq_self.mpr
    intro a ha
    have hay : a ∈ collapseLines (removeNulls l) := hxy a (hzx a ha)
    rcases mem_collapseLines hay with hmem | hsp | hnl
    · exact (List.mem_filter.mp hmem).2
    · subst hsp; decide
    · subst hnl; decide
  show pyStrip (collapseNl3 (collapseLines (removeNulls (sanitizeCore l)))) =
    sanitizeCore l
  rw [hNoNull]
  have hcl : collapseLines (sanitizeCore l) = sanitizeCore l := by
    refine collapseLines_fixed (sanitizeCore l).length _ (le_refl _) hWs hOkz ?_ ?_
    · intro c hc
      exact ne_space_of_nonspace (hHead c hc)
    · intro c hc
      exact ne_space_of_nonspace (hLast c hc)
  rw [hcl]
  have hcn : collapseNl3 (sanitizeCore l) = sanitizeCore l := by
    rw [collapseNl3_eq, if_neg (by simp [hTriple])]
  rw [hcn]
  exact pyStrip_fixed hHead hLast

/-! ## Claim C5 -/

/-- C5 (counterexample): the sanitizer is not idempotent on the text
component when truncation occurs: `sanitize_text "a b" 2` yields the text
`"a "`, but sanitizing `"a "` again yields `"a"`.  Truncation is applied
after the final strip, so it can expose trailing whitespace that a second
pass removes. -/
theorem c5_counterexample :
    sanitize_text "a b" 2 = ("a ", true) ∧
    (sanitize_text "a " 2).1 = "a" ∧ ("a" : String) ≠ "a " := by
  refine ⟨rfl, rfl, ?_⟩
  decide

/-- C5 (amended): the sanitizer is idempotent whenever the first
application did not truncate: if `sanitize_text s ml` reports
`truncated = false`, then re-sanitizing its text component reproduces the
same result (same text, and again `truncated = false`).  When truncation
occurs the text component can change under a second application. -/
theorem c5_idempotent (s : String) (ml : Nat)
    (h : (sanitize_text s ml).2 = false) :
    sanitize_text ((sanitize_text s ml).1) ml = sanitize_text s ml := by
  have hC : ¬((sanitizeCore s.data).length > ml) := by
    intro hgt
    have : (sanitize_text s ml).2 = true := by
      unfold sanitize_text
      rw [if_pos hgt]
    rw [this] at h
    cases h
  have heq : sanitize_text s ml = (⟨sanitizeCore s.data⟩, false) := by
    unfold sanitize_text
    rw [if_neg hC]
  have h2 : sanitize_text ⟨sanitizeCore s.data⟩ ml = (⟨sanitizeCore s.data⟩, false) := by
    show (if (sanitizeCore (sanitizeCore s.data)).length > ml then
        ((⟨(sanitizeCore (sanitizeCore s.data)).take ml⟩ : String), true)
      else (⟨sanitizeCore (sanitizeCore s.data)⟩, false)) = (⟨sanitizeCore s.data⟩, false)
    rw [sanitizeCore_fixed]
    exact if_neg hC
  rw [heq]
  exact h2

/-- C5 (witness): a concrete non-truncating run, re-sanitized. -/
theorem c5_idempotent_witness :
    (sanitize_text "a  b" 100).2 = false ∧
    sanitize_text ((sanitize_text "a  b" 100).1) 100 = sanitize_text "a  b" 100 :=
  ⟨rfl, c5_idempotent "a  b" 100 rfl⟩

end ResumeDiff
